import Mathlib

/-!
Verification development for the AdBlitz bulk video-ad generator
(`src/bin/adblitz.js`).  The JavaScript source is shallowly embedded:
pure parts of the pipeline become Lean functions, numbers that the
script manipulates as JS numbers are modelled as rationals, external
probes (ffprobe) are modelled as oracle parameters, and the
concurrency of the job scheduler is modelled as a small-step
transition system.
-/

namespace AdBlitz

/-- A resolved media file, mirroring the `{ name, path }` objects built by
`getVideos` / `getAudioFiles`. -/
structure MediaItem where
  name : String
  path : String
deriving Repr, DecidableEq

/-- A labeled pool of clips, mirroring `{ label, videos }` entries of the
`segments` array. -/
structure Segment where
  label : String
  videos : List MediaItem
deriving Repr, DecidableEq

/-- One selected clip of one combination, mirroring the
`{ label, video }` objects of `combo.parts`. -/
structure ComboPart where
  label : String
  video : MediaItem
deriving Repr, DecidableEq

/-- A combination before naming: the selected parts plus the optional
overlay text and music track attached by the expansion phase
(`combos` array of the script). -/
structure Combo where
  parts : List ComboPart
  overlayText : Option String := none
  music : Option MediaItem := none
deriving Repr, DecidableEq

/-- Embedding of `cartesian(arrays)` (adblitz.js line 261): a `reduce`
with initial accumulator `[[]]`, each step `flatMap`ping the
accumulator and appending one item of the current array. -/
def cartesian (arrays : List (List α)) : List (List α) :=
  arrays.foldl (fun acc arr => acc.flatMap (fun combo => arr.map (fun item => combo ++ [item]))) [[]]

/-- Embedding of the combo construction at line 523: attach the label of
the i-th segment to the i-th selected video (`videos.map((v, i) => ...)`). -/
def attachLabels (segments : List Segment) (videos : List MediaItem) : Combo :=
  { parts := (videos.zip (segments.map Segment.label)).map (fun p => { label := p.2, video := p.1 }) }

/-- Embedding of lines 519-525: build the base combinations from the
cartesian product of the segments' video pools. -/
def baseCombos (segments : List Segment) : List Combo :=
  (cartesian (segments.map Segment.videos)).map (attachLabels segments)

/-- Embedding of the overlay expansion (lines 533-541): when overlays are
present, each combination is replaced by one copy per overlay text, in
overlay order. -/
def expandOverlays (overlays : List String) (combos : List Combo) : List Combo :=
  if overlays.length > 0 then
    combos.flatMap (fun combo => overlays.map (fun text => { combo with overlayText := some text }))
  else combos

/-- Embedding of the music expansion (lines 544-558): with `--music-all`
and tracks present, multiply by the tracks; with tracks present but no
`--music-all`, attach round-robin track `i % tracks.length`. -/
def expandMusic (musicFiles : List MediaItem) (musicAll : Bool) (combos : List Combo) : List Combo :=
  if musicFiles.length > 0 && musicAll then
    combos.flatMap (fun combo => musicFiles.map (fun track => { combo with music := some track }))
  else if musicFiles.length > 0 then
    combos.mapIdx (fun i combo => { combo with music := musicFiles.get? (i % musicFiles.length) })
  else combos

/-- The full expansion pipeline of the script, before naming. -/
def expandAll (segments : List Segment) (overlays : List String)
    (musicFiles : List MediaItem) (musicAll : Bool) : List Combo :=
  expandMusic musicFiles musicAll (expandOverlays overlays (baseCombos segments))

-- ── Length lemmas ──────────────────────────────────────────────────────────

theorem sum_map_const {l : List β} {f : β → Nat} {k : Nat} (h : ∀ b ∈ l, f b = k) :
    (l.map f).sum = l.length * k := by
  induction l with
  | nil => simp
  | cons a as ih =>
    simp only [List.map_cons, List.sum_cons, List.length_cons]
    rw [h a (by simp), ih (fun b hb => h b (by simp [hb]))]
    ring

theorem cartesian_foldl (arrays : List (List α)) (acc : List (List α)) :
    arrays.foldl (fun acc arr => acc.flatMap (fun combo => arr.map (fun item => combo ++ [item]))) acc
      = acc.flatMap (fun c => (cartesian arrays).map (c ++ ·)) := by
  induction arrays generalizing acc with
  | nil =>
    simp [cartesian]
  | cons a as ih =>
    show List.foldl _ (acc.flatMap fun combo => a.map fun item => combo ++ [item]) as = _
    rw [ih]
    have hcart : cartesian (a :: as) = (a.map (fun x => [x])).flatMap (fun c => (cartesian as).map (c ++ ·)) := by
      show List.foldl _ ([[]].flatMap fun combo => a.map fun item => combo ++ [item]) as = _
      rw [ih]
      simp
    rw [hcart]
    simp only [List.flatMap_assoc, List.map_flatMap, List.flatMap_map, List.map_map]
    congr 1
    funext c
    congr 1
    funext x
    simp [Function.comp, List.append_assoc]

/-- Nested-loop recurrence of the cartesian product: the head axis varies
slowest. -/
theorem cartesian_cons (xs : List α) (rest : List (List α)) :
    cartesian (xs :: rest) = xs.flatMap (fun x => (cartesian rest).map (x :: ·)) := by
  show List.foldl _ ([[]].flatMap fun combo => xs.map fun item => combo ++ [item]) rest = _
  rw [cartesian_foldl]
  simp [List.flatMap_map, List.singleton_append]

theorem cartesian_length (arrays : List (List α)) :
    (cartesian arrays).length = (arrays.map List.length).prod := by
  induction arrays with
  | nil => simp [cartesian]
  | cons a as ih =>
    rw [cartesian_cons]
    simp only [List.length_flatMap, List.map_cons, List.prod_cons]
    rw [sum_map_const (k := (cartesian as).length) (by intro b _; simp)]
    rw [ih]

theorem baseCombos_length (segments : List Segment) :
    (baseCombos segments).length = (segments.map (fun s => s.videos.length)).prod := by
  simp only [baseCombos, List.length_map, cartesian_length]
  congr 1
  simp

theorem expandOverlays_length (overlays : List String) (combos : List Combo) :
    (expandOverlays overlays combos).length
      = combos.length * (if overlays.isEmpty then 1 else overlays.length) := by
  by_cases h : overlays.length > 0
  · have hne : ¬ overlays.isEmpty := by
      cases overlays <;> simp_all
    simp only [expandOverlays, if_pos h, List.length_flatMap, hne, if_false]
    exact sum_map_const (by intro b _; simp)
  · have he : overlays = [] := by
      cases overlays <;> simp_all
    simp [expandOverlays, he]

theorem expandMusic_length (musicFiles : List MediaItem) (musicAll : Bool) (combos : List Combo) :
    (expandMusic musicFiles musicAll combos).length
      = combos.length * (if musicFiles.length > 0 && musicAll then musicFiles.length else 1) := by
  by_cases h : musicFiles.length > 0 && musicAll
  · simp only [expandMusic, if_pos h, List.length_flatMap]
    exact sum_map_const (by intro b _; simp)
  · by_cases h2 : musicFiles.length > 0
    · simp_all [expandMusic]
    · simp_all [expandMusic]

/-- C1: the final expanded combination count is the product of the segment
pool sizes, times the overlay count when overlays are non-empty, times the
music-track count exactly when tracks are present and `--music-all` is set;
round-robin music assignment never changes the count. -/
theorem expansion_count (segments : List Segment) (overlays : List String)
    (musicFiles : List MediaItem) (musicAll : Bool) :
    (expandAll segments overlays musicFiles musicAll).length
      = (segments.map (fun s => s.videos.length)).prod
        * (if overlays.isEmpty then 1 else overlays.length)
        * (if musicFiles.length > 0 && musicAll then musicFiles.length else 1) := by
  simp [expandAll, expandMusic_length, expandOverlays_length, baseCombos_length]

-- ── JS string primitives ───────────────────────────────────────────────────

/-- Decimal digit list of `n` (most significant first), with structural fuel
so that the kernel can evaluate it.  `natDigits (n+1) n` is always exact. -/
def natDigits : Nat → Nat → List Char
  | 0, _ => []
  | fuel+1, n => if n < 10 then [Nat.digitChar n] else natDigits fuel (n / 10) ++ [Nat.digitChar (n % 10)]

/-- Decimal rendering of a natural number, modelling JS `String(n)` /
template-literal interpolation of a non-negative integer. -/
def natRepr (n : Nat) : String := ⟨natDigits (n + 1) n⟩

/-- Model of `String.prototype.toLowerCase` (character-wise; faithful for
the ASCII range handled by the script). -/
def jsToLower (s : String) : String := ⟨s.data.map Char.toLower⟩

/-- Model of `String.prototype.padStart(n, c)`. -/
def padStart (s : String) (n : Nat) (c : Char) : String :=
  ⟨List.replicate (n - s.data.length) c ++ s.data⟩

/-- `$`-expansion of a replacement string as performed by
`String.prototype.replace`: `$$` yields `$`, `$&` the matched text,
a dollar before a backquote the text preceding the match, `$'` the text
following it; any other `$x` stays literal (the patterns used by the
script have no capture groups). -/
def dollarSubst (matched before after : List Char) : List Char → List Char
  | [] => []
  | c :: rest =>
    if c = '$' then
      match rest with
      | [] => [c]
      | d :: rest2 =>
        if d = '$' then '$' :: dollarSubst matched before after rest2
        else if d = '&' then matched ++ dollarSubst matched before after rest2
        else if d = Char.ofNat 96 then before ++ dollarSubst matched before after rest2
        else if d = Char.ofNat 39 then after ++ dollarSubst matched before after rest2
        else c :: d :: dollarSubst matched before after rest2
    else c :: dollarSubst matched before after rest

/-- Scanner for one global literal-pattern replacement pass.  `orig` and
`pos` carry the original string and the current offset so that the
replacement patterns referring to the text around the match can be
expanded.  The fuel is structural; `rem.length + 1` is always enough. -/
def replaceScan (orig pat repl : List Char) : Nat → Nat → List Char → List Char
  | 0, _, rem => rem
  | fuel+1, pos, rem =>
    if pat ≠ [] ∧ pat.isPrefixOf rem then
      dollarSubst pat (orig.take pos) (orig.drop (pos + pat.length)) repl
        ++ replaceScan orig pat repl fuel (pos + pat.length) (rem.drop pat.length)
    else
      match rem with
      | [] => []
      | c :: rest => c :: replaceScan orig pat repl fuel (pos + 1) rest

/-- Model of `s.replace(new RegExp(escapeRegex(pat), "g"), repl)`:
`escapeRegex` (line 287) makes the constructed regex match `pat`
literally, so the pass is a global left-to-right literal replacement. -/
def jsReplaceAll (s pat repl : String) : String :=
  ⟨replaceScan s.data pat.data repl.data (s.data.length + 1) 0 s.data⟩

-- ── NamingEngine ───────────────────────────────────────────────────────────

/-- Embedding of `applyNaming(template, parts, index)` (lines 269-285):
substitute `\x7bindex\x7d` (1-based, zero-padded to 4) and `\x7bdate\x7d`
first, then each part's `\x7blabel\x7d`, then the positional patterns.
The `date` argument models `new Date().toISOString().slice(0, 10)`. -/
def applyNaming (template : String) (parts : List ComboPart) (index : Nat) (date : String) : String :=
  let name := jsReplaceAll template "\x7bindex\x7d" (padStart (natRepr (index + 1)) 4 '0')
  let name := jsReplaceAll name "\x7bdate\x7d" date
  let name := parts.foldl (fun acc p => jsReplaceAll acc ("\x7b" ++ p.label ++ "\x7d") p.video.name) name
  parts.enum.foldl (fun acc ip => jsReplaceAll acc ("\x7b" ++ natRepr ip.1 ++ "\x7d") ip.2.video.name) name

/-- The character class `\s` of JS regular expressions. -/
def isJsWhitespace (c : Char) : Bool :=
  c.toNat = 9 || c.toNat = 10 || c.toNat = 11 || c.toNat = 12 || c.toNat = 13 || c.toNat = 32
  || c.toNat = 0xA0 || c.toNat = 0x1680 || (0x2000 ≤ c.toNat && c.toNat ≤ 0x200A)
  || c.toNat = 0x2028 || c.toNat = 0x2029 || c.toNat = 0x202F || c.toNat = 0x205F
  || c.toNat = 0x3000 || c.toNat = 0xFEFF

/-- `name.replace(/_+/g, "_")`: collapse each run of underscores. -/
def collapseUnderscores : List Char → List Char
  | [] => []
  | c :: rest =>
    if c = '_' ∧ rest.head? = some '_' then collapseUnderscores rest
    else c :: collapseUnderscores rest

/-- Drop the trailing run of characters satisfying `p`. -/
def dropTrailing (p : Char → Bool) (cs : List Char) : List Char :=
  (cs.reverse.dropWhile p).reverse

/-- Embedding of `sanitizeFilename` (lines 59-75). -/
def sanitizeFilename (s : String) : String :=
  let cs := s.data.filter (fun c => c.toNat ≠ 0)
  let cs := cs.map (fun c => if c = '/' ∨ c = '\\' then '_' else c)
  let cs := cs.map (fun c => if c ∈ ['<', '>', ':', '"', '|', '?', '*'] then '_' else c)
  let cs := collapseUnderscores cs
  let cs := cs.dropWhile (fun c => c = '.' || isJsWhitespace c)
  let cs := dropTrailing (fun c => c = '.' || isJsWhitespace c) cs
  let cs := cs.take 200
  if cs = [] then "unnamed" else ⟨cs⟩

def isAsciiAlnum (c : Char) : Bool :=
  ('a' ≤ c && c ≤ 'z') || ('A' ≤ c && c ≤ 'Z') || ('0' ≤ c && c ≤ '9')

/-- `overlayText.replace(/[^a-zA-Z0-9]+/g, "-")`: each run of
non-alphanumeric characters becomes a single dash. -/
def slugChars : List Char → List Char
  | [] => []
  | c :: rest =>
    if isAsciiAlnum c then c :: slugChars rest
    else if (match rest.head? with | some d => !isAsciiAlnum d | none => false) then slugChars rest
    else '-' :: slugChars rest

/-- The overlay slug appended to a name (line 569): collapsed runs, then
`substring(0, 30)`. -/
def overlaySlug (t : String) : String := ⟨(slugChars t.data).take 30⟩

/-- The raw (pre-deduplication) name of the combination at position `i`
(lines 566-577): template rendering, overlay slug, music suffix when
`--music-all`, then sanitization. -/
def comboRawName (template : String) (musicAll : Bool) (date : String) (c : Combo) (i : Nat) : String :=
  let name := applyNaming template c.parts i date
  let name := match c.overlayText with
    | some t => name ++ "_" ++ overlaySlug t
    | none => name
  let name := match c.music with
    | some m => if musicAll then name ++ "_" ++ m.name else name
    | none => name
  sanitizeFilename name

/-- The candidate built by the collision loop: `name + "_" + counter`. -/
def candName (name : String) (k : Nat) : String := name ++ "_" ++ natRepr k

-- ── Decimal rendering: correctness and injectivity ─────────────────────────

/-- Value of a most-significant-first digit string. -/
def digitsVal (cs : List Char) : Nat := cs.foldl (fun a c => 10 * a + (c.toNat - 48)) 0

theorem digitsVal_append_singleton (cs : List Char) (c : Char) :
    digitsVal (cs ++ [c]) = 10 * digitsVal cs + (c.toNat - 48) := by
  simp [digitsVal]

theorem digitChar_val : ∀ d, d < 10 → (Nat.digitChar d).toNat - 48 = d := by decide

theorem natDigits_val (fuel : Nat) : ∀ n, n < 10 ^ fuel → digitsVal (natDigits fuel n) = n := by
  induction fuel with
  | zero =>
    intro n h
    interval_cases n
    simp [natDigits, digitsVal]
  | succ fuel ih =>
    intro n h
    by_cases h10 : n < 10
    · simp [natDigits, h10, digitsVal, digitChar_val n h10]
    · have hdiv : n / 10 < 10 ^ fuel := by
        rw [Nat.div_lt_iff_lt_mul (by norm_num)]
        calc n < 10 ^ (fuel + 1) := h
          _ = 10 ^ fuel * 10 := by ring
      rw [natDigits, if_neg h10, digitsVal_append_singleton, ih _ hdiv,
        digitChar_val _ (Nat.mod_lt n (by norm_num))]
      exact Nat.div_add_mod n 10

theorem natRepr_inj : Function.Injective natRepr := by
  intro m n h
  have hm : m < 10 ^ (m + 1) :=
    lt_of_lt_of_le (Nat.lt_pow_self (by norm_num) m) (Nat.pow_le_pow_right (by norm_num) (Nat.le_succ m))
  have hn : n < 10 ^ (n + 1) :=
    lt_of_lt_of_le (Nat.lt_pow_self (by norm_num) n) (Nat.pow_le_pow_right (by norm_num) (Nat.le_succ n))
  have hdata : natDigits (m + 1) m = natDigits (n + 1) n := congrArg String.data h
  have := congrArg digitsVal hdata
  rwa [natDigits_val _ _ hm, natDigits_val _ _ hn] at this

theorem toLower_digitChar : ∀ d, d < 10 → Char.toLower (Nat.digitChar d) = Nat.digitChar d := by
  decide

theorem natDigits_toLower (fuel : Nat) : ∀ n, (natDigits fuel n).map Char.toLower = natDigits fuel n := by
  induction fuel with
  | zero => intro n; simp [natDigits]
  | succ fuel ih =>
    intro n
    by_cases h10 : n < 10
    · simp [natDigits, h10, toLower_digitChar n h10]
    · rw [natDigits, if_neg h10]
      simp [ih, toLower_digitChar _ (Nat.mod_lt n (by norm_num))]

theorem data_jsToLower (s : String) : (jsToLower s).data = s.data.map Char.toLower := rfl

theorem jsToLower_append (a b : String) : jsToLower (a ++ b) = jsToLower a ++ jsToLower b := by
  apply String.ext
  simp [data_jsToLower, String.data_append]

theorem jsToLower_natRepr (n : Nat) : jsToLower (natRepr n) = natRepr n := by
  apply String.ext
  simp [data_jsToLower, natRepr, natDigits_toLower]

theorem jsToLower_candName (name : String) (k : Nat) :
    jsToLower (candName name k) = jsToLower name ++ "_" ++ natRepr k := by
  rw [candName, jsToLower_append, jsToLower_append, jsToLower_natRepr]
  rfl

theorem candName_lower_inj (name : String) {j k : Nat}
    (h : jsToLower (candName name j) = jsToLower (candName name k)) : j = k := by
  rw [jsToLower_candName, jsToLower_candName] at h
  have hdata := congrArg String.data h
  simp only [String.data_append] at hdata
  have : natRepr j = natRepr k := by
    apply String.ext
    rw [List.append_assoc, List.append_assoc] at hdata
    exact List.append_cancel_left (List.append_cancel_left hdata)
  exact natRepr_inj this

-- ── Deduplication (lines 564-587) ──────────────────────────────────────────

theorem exists_free_cand (used : List String) (name : String) :
    ∃ k, jsToLower (candName name (k + 1)) ∉ used := by
  by_contra hall
  push_neg at hall
  have hinj : Function.Injective (fun k => jsToLower (candName name (k + 1))) := by
    intro a b hab
    have := candName_lower_inj name hab
    omega
  set l := (List.range (used.length + 1)).map (fun k => jsToLower (candName name (k + 1))) with hl
  have hnodup : l.Nodup := (List.nodup_range _).map hinj
  have hsub : l.toFinset ⊆ used.toFinset := by
    intro x hx
    simp only [hl, List.mem_toFinset, List.mem_map, List.mem_range] at hx
    obtain ⟨k, _, rfl⟩ := hx
    exact List.mem_toFinset.mpr (hall k)
  have h1 : l.toFinset.card = used.length + 1 := by
    rw [List.toFinset_card_of_nodup hnodup, hl, List.length_map, List.length_range]
  have h2 : used.toFinset.card ≤ used.length := used.toFinset_card_le
  have := Finset.card_le_card hsub
  omega

/-- Embedding of the collision loop (lines 579-584): try `name`, then
`name_1`, `name_2`, … against the case-insensitive set of already
assigned names; a `while` loop over successive counters returns the
candidate with the least counter that is free. -/
def dedupPick (used : List String) (name : String) : String :=
  if jsToLower name ∈ used then candName name (Nat.find (exists_free_cand used name) + 1)
  else name

theorem dedupPick_fresh (used : List String) (name : String) :
    jsToLower (dedupPick used name) ∉ used := by
  rw [dedupPick]
  split
  · exact Nat.find_spec (exists_free_cand used name)
  · assumption

theorem dedupPick_no_collision (used : List String) (name : String)
    (h : jsToLower name ∉ used) : dedupPick used name = name := by
  rw [dedupPick, if_neg h]

theorem dedupPick_collision (used : List String) (name : String)
    (h : jsToLower name ∈ used) :
    ∃ k, 1 ≤ k ∧ dedupPick used name = candName name k ∧
      jsToLower (candName name k) ∉ used ∧
      ∀ j, 1 ≤ j → j < k → jsToLower (candName name j) ∈ used := by
  refine ⟨Nat.find (exists_free_cand used name) + 1, by omega, by rw [dedupPick, if_pos h],
    Nat.find_spec (exists_free_cand used name), ?_⟩
  intro j h1 hj
  have := Nat.find_min (exists_free_cand used name) (m := j - 1) (by omega)
  simpa [Nat.sub_add_cancel h1] using this

/-- The per-batch dedup fold over raw (already sanitized) names: the
`usedNames` set holds the lowered form of every assigned name. -/
def dedupNames (used : List String) : List String → List String
  | [] => []
  | n :: rest =>
    let fin := dedupPick used n
    fin :: dedupNames (jsToLower fin :: used) rest

theorem dedupNames_length (used : List String) (names : List String) :
    (dedupNames used names).length = names.length := by
  induction names generalizing used with
  | nil => rfl
  | cons n rest ih => simp [dedupNames, ih]

theorem dedupNames_nodup_aux (names : List String) :
    ∀ used, ((dedupNames used names).map jsToLower).Nodup ∧
      ∀ x ∈ (dedupNames used names).map jsToLower, x ∉ used := by
  induction names with
  | nil => simp [dedupNames]
  | cons n rest ih =>
    intro used
    obtain ⟨ihnodup, ihfresh⟩ := ih (jsToLower (dedupPick used n) :: used)
    refine ⟨?_, ?_⟩
    · simp only [dedupNames, List.map_cons, List.nodup_cons]
      refine ⟨?_, ihnodup⟩
      intro hmem
      exact (ihfresh _ hmem) (by simp)
    · intro x hx hxused
      simp only [dedupNames, List.map_cons, List.mem_cons] at hx
      rcases hx with rfl | hx
      · exact dedupPick_fresh used n hxused
      · exact (ihfresh x hx) (by simp [hxused])

theorem dedupNames_get (names : List String) :
    ∀ used i (hi : i < names.length),
      (dedupNames used names).get? i
        = some (dedupPick ((((dedupNames used names).take i).map jsToLower).reverse ++ used)
            (names.get ⟨i, hi⟩)) := by
  induction names with
  | nil => intro used i hi; simp at hi
  | cons n rest ih =>
    intro used i hi
    match i with
    | 0 => simp [dedupNames]
    | (j+1) =>
      have hj : j < rest.length := by simpa using hi
      have := ih (jsToLower (dedupPick used n) :: used) j hj
      simp only [dedupNames, List.get?_cons_succ, List.take_succ_cons, List.map_cons,
        List.reverse_cons, List.get_cons_succ]
      rw [this]
      congr 2
      simp [List.append_assoc]

/-- A combination with its final assigned output filename
(`{ ...combo, name: finalName + ".mp4" }`, line 586). -/
structure NamedCombo where
  combo : Combo
  name : String
deriving Repr, DecidableEq

/-- The naming fold of lines 564-587: running case-insensitive `usedNames`
set, 0-based position `i`, raw name build, dedup, `.mp4` suffix. -/
def nameCombosGo (template : String) (musicAll : Bool) (date : String) :
    List String → Nat → List Combo → List NamedCombo
  | _, _, [] => []
  | used, i, c :: rest =>
    let fin := dedupPick used (comboRawName template musicAll date c i)
    ⟨c, fin ++ ".mp4"⟩ :: nameCombosGo template musicAll date (jsToLower fin :: used) (i + 1) rest

def nameCombos (template : String) (musicAll : Bool) (date : String)
    (combos : List Combo) : List NamedCombo :=
  nameCombosGo template musicAll date [] 0 combos

/-- The raw names fed into the dedup fold, starting at position `i`. -/
def rawNames (template : String) (musicAll : Bool) (date : String) : Nat → List Combo → List String
  | _, [] => []
  | i, c :: rest => comboRawName template musicAll date c i :: rawNames template musicAll date (i + 1) rest

theorem nameCombosGo_name_map (template : String) (musicAll : Bool) (date : String) :
    ∀ (cs : List Combo) (used : List String) (i : Nat),
      (nameCombosGo template musicAll date used i cs).map NamedCombo.name
        = (dedupNames used (rawNames template musicAll date i cs)).map (· ++ ".mp4") := by
  intro cs
  induction cs with
  | nil => intro used i; rfl
  | cons c rest ih =>
    intro used i
    simp only [nameCombosGo, rawNames, dedupNames, List.map_cons]
    exact congrArg _ (ih _ _)

theorem append_mp4_inj : Function.Injective (fun s : String => s ++ ".mp4") := by
  intro a b h
  have := congrArg String.data h
  simp only [String.data_append] at this
  exact String.ext (List.append_cancel_right this)

theorem jsToLower_append_mp4 (s : String) : jsToLower (s ++ ".mp4") = jsToLower s ++ ".mp4" := by
  rw [jsToLower_append]
  rfl

/-- C2: after sanitization and numeric-suffix deduplication, every
assigned output name is unique case-insensitively across the batch; on a
collision the suffix `_k` with the least non-colliding counter `k ≥ 1` is
appended before the name is recorded.  The whole assignment is a pure
function of the inputs (`nameCombos`), so it is deterministic. -/
theorem names_unique_after_dedup :
    (∀ template musicAll date combos,
      ((nameCombos template musicAll date combos).map (fun nc => jsToLower nc.name)).Nodup)
    ∧ ∀ (raws : List String) (i : Nat), i < raws.length →
        ((dedupNames [] (raws.map sanitizeFilename)).map jsToLower).Nodup
        ∧ (dedupNames [] (raws.map sanitizeFilename)).length = raws.length
        ∧ ∀ (hi : i < raws.length),
          (jsToLower (sanitizeFilename (raws.get ⟨i, hi⟩))
              ∉ ((dedupNames [] (raws.map sanitizeFilename)).take i).map jsToLower →
            (dedupNames [] (raws.map sanitizeFilename)).get? i
              = some (sanitizeFilename (raws.get ⟨i, hi⟩)))
          ∧ (jsToLower (sanitizeFilename (raws.get ⟨i, hi⟩))
              ∈ ((dedupNames [] (raws.map sanitizeFilename)).take i).map jsToLower →
            ∃ k, 1 ≤ k
              ∧ (dedupNames [] (raws.map sanitizeFilename)).get? i
                  = some (candName (sanitizeFilename (raws.get ⟨i, hi⟩)) k)
              ∧ jsToLower (candName (sanitizeFilename (raws.get ⟨i, hi⟩)) k)
                  ∉ ((dedupNames [] (raws.map sanitizeFilename)).take i).map jsToLower
              ∧ ∀ j, 1 ≤ j → j < k →
                  jsToLower (candName (sanitizeFilename (raws.get ⟨i, hi⟩)) j)
                    ∈ ((dedupNames [] (raws.map sanitizeFilename)).take i).map jsToLower) := by
  constructor
  · intro template musicAll date combos
    have hmap : (nameCombos template musicAll date combos).map (fun nc => jsToLower nc.name)
        = ((dedupNames [] (rawNames template musicAll date 0 combos)).map jsToLower).map
            (fun s => s ++ ".mp4") := by
      have h1 : (nameCombos template musicAll date combos).map (fun nc => jsToLower nc.name)
          = ((nameCombos template musicAll date combos).map NamedCombo.name).map jsToLower := by
        simp [List.map_map, Function.comp]
      rw [h1, nameCombos, nameCombosGo_name_map]
      simp only [List.map_map]
      congr 1
      funext s
      exact jsToLower_append_mp4 s
    rw [hmap]
    exact ((dedupNames_nodup_aux _ []).1).map append_mp4_inj
  · intro raws i hilen
    have hlen : (raws.map sanitizeFilename).length = raws.length := by simp
    refine ⟨(dedupNames_nodup_aux _ []).1, by rw [dedupNames_length]; exact hlen, ?_⟩
    intro hi
    have hget := dedupNames_get (raws.map sanitizeFilename) [] i (by simpa using hi)
    have hgetraw : (raws.map sanitizeFilename).get ⟨i, by simpa using hi⟩
        = sanitizeFilename (raws.get ⟨i, hi⟩) := by
      simp
    rw [hgetraw] at hget
    set outs := dedupNames [] (raws.map sanitizeFilename) with houts
    set base := sanitizeFilename (raws.get ⟨i, hi⟩) with hbase
    have hmemiff : ∀ x : String,
        (x ∈ ((outs.take i).map jsToLower).reverse ++ []) ↔ x ∈ (outs.take i).map jsToLower := by
      intro x; simp
    constructor
    · intro hnot
      rw [hget, dedupPick_no_collision]
      rw [hmemiff]
      exact hnot
    · intro hmem
      obtain ⟨k, hk1, hpick, hfree, hblocked⟩ :=
        dedupPick_collision (((outs.take i).map jsToLower).reverse ++ []) base
          (by rw [hmemiff]; exact hmem)
      refine ⟨k, hk1, by rw [hget, hpick], ?_, ?_⟩
      · intro hcontra
        exact hfree ((hmemiff _).mpr hcontra)
      · intro j hj1 hjk
        exact (hmemiff _).mp (hblocked j hj1 hjk)

-- ── Full naming pipeline ───────────────────────────────────────────────────

/-- The default naming template (line 561): the segment labels, each in
braces, joined by underscores. -/
def defaultNamingTemplate (segments : List Segment) : String :=
  String.intercalate "_" (segments.map (fun s => "\x7b" ++ s.label ++ "\x7d"))

/-- `opts.naming || defaultNaming` (line 562): an absent or empty (falsy)
template falls back to the default. -/
def chooseTemplate (namingOpt : Option String) (segments : List Segment) : String :=
  match namingOpt with
  | some t => if t = "" then defaultNamingTemplate segments else t
  | none => defaultNamingTemplate segments

/-- Expansion plus naming: the list of combinations the render phase
receives. -/
def runPipeline (segments : List Segment) (overlays : List String) (musicFiles : List MediaItem)
    (musicAll : Bool) (namingOpt : Option String) (date : String) : List NamedCombo :=
  nameCombos (chooseTemplate namingOpt segments) musicAll date
    (expandAll segments overlays musicFiles musicAll)

-- ── C3: ordering ───────────────────────────────────────────────────────────

theorem flatMap_get_uniform {β γ : Type} {f : β → List γ} {m : Nat}
    (hm : ∀ b, (f b).length = m) :
    ∀ (l : List β) (i j : Nat) (hi : i < l.length), j < m →
      (l.flatMap f).get? (i * m + j) = (f (l.get ⟨i, hi⟩)).get? j := by
  intro l
  induction l with
  | nil => intro i j hi; simp at hi
  | cons b bs ih =>
    intro i j hi hj
    match i with
    | 0 =>
      simp only [List.flatMap_cons, List.get]
      rw [Nat.zero_mul, Nat.zero_add, List.get?_append (by rw [hm b]; exact hj)]
    | (i'+1) =>
      have hi' : i' < bs.length := by simpa using hi
      simp only [List.flatMap_cons, List.get]
      rw [List.get?_append_right (by rw [hm b]; nlinarith), hm b]
      have harith : (i' + 1) * m + j - m = i' * m + j := by ring_nf; omega
      rw [harith]
      exact ih i' j hi' hj

set_option maxHeartbeats 2000000 in
/-- C3: the combination sequence is in nested-loop order (first segment
axis slowest, last fastest); overlay variants of base combination `i` are
contiguous, in overlay order, before any variant of base `i+1`; and the
two-segment example `hook:[a,b]`, `cta:[x,y]` with default naming yields
exactly `a_x.mp4, a_y.mp4, b_x.mp4, b_y.mp4` in that order. -/
theorem combination_order :
    (∀ (α : Type) (xs : List α) (rest : List (List α)),
      cartesian (xs :: rest) = xs.flatMap (fun x => (cartesian rest).map (x :: ·)))
    ∧ (∀ (combos : List Combo) (overlays : List String) (i j : Nat)
        (hi : i < combos.length) (hj : j < overlays.length),
        (expandOverlays overlays combos).get? (i * overlays.length + j)
          = some { combos.get ⟨i, hi⟩ with overlayText := some (overlays.get ⟨j, hj⟩) })
    ∧ (runPipeline
          [⟨"hook", [⟨"a", "pa"⟩, ⟨"b", "pb"⟩]⟩, ⟨"cta", [⟨"x", "px"⟩, ⟨"y", "py"⟩]⟩]
          [] [] false none "2026-10-11").map NamedCombo.name
          = ["a_x.mp4", "a_y.mp4", "b_x.mp4", "b_y.mp4"] := by
  refine ⟨fun α => cartesian_cons, ?_, ?_⟩
  · intro combos overlays i j hi hj
    have hpos : overlays.length > 0 := by omega
    rw [expandOverlays, if_pos hpos]
    rw [flatMap_get_uniform (by intro b; simp) combos i j hi hj]
    rw [List.get?_map]
    rw [List.get?_eq_get hj]
    rfl
  · decide

theorem names_unique_after_dedup_witness :
    ((dedupNames [] (["a", "A", "a"].map sanitizeFilename)).map jsToLower).Nodup :=
  (names_unique_after_dedup.2 ["a", "A", "a"] 2 (by decide)).1

theorem combination_order_witness :
    (expandOverlays ["SALE", "NEW"]
        [({ parts := [] } : Combo), { parts := [⟨"hook", ⟨"b", "pb"⟩⟩] }]).get? (1 * 2 + 1)
      = some { parts := [⟨"hook", ⟨"b", "pb"⟩⟩], overlayText := some "NEW" } :=
  combination_order.2.1 _ _ 1 1 (by decide) (by decide)

-- ── C5: template rendering order ───────────────────────────────────────────

/-- C5 counterexample: with template `\x7bhook\x7d_\x7bcta\x7d`, a hook
clip whose filename is the literal text `\x7b1\x7d` and a cta clip named
`x`, the later positional pass re-matches the text introduced by the
label substitution, producing `x_x` instead of the claimed
`\x7b1\x7d_x`. -/
theorem naming_positional_rematch_cex :
    applyNaming "\x7bhook\x7d_\x7bcta\x7d"
        [⟨"hook", ⟨"\x7b1\x7d", "p1"⟩⟩, ⟨"cta", ⟨"x", "p2"⟩⟩] 0 "2026-10-11" = "x_x"
    ∧ applyNaming "\x7bhook\x7d_\x7bcta\x7d"
        [⟨"hook", ⟨"\x7b1\x7d", "p1"⟩⟩, ⟨"cta", ⟨"x", "p2"⟩⟩] 0 "2026-10-11" ≠ "\x7b1\x7d_x" := by
  constructor
  · decide
  · decide

/-- C5 (amended): rendering substitutes the index (1-based, zero-padded
to 4 digits) and the date first, then label occurrences, then positional
occurrences; index/date text introduced by a label substitution is never
re-substituted (those passes already ran), but positional substitution
operates on the whole accumulated string and therefore can re-match
positional text introduced by a label substitution. -/
theorem naming_substitution_order :
    applyNaming "\x7bindex\x7d_\x7bhook\x7d" [⟨"hook", ⟨"myhook", "p"⟩⟩] 2 "2026-10-11"
        = "0003_myhook"
    ∧ applyNaming "\x7bhook\x7d" [⟨"hook", ⟨"\x7bindex\x7d", "p"⟩⟩] 7 "2026-10-11"
        = "\x7bindex\x7d"
    ∧ applyNaming "\x7bhook\x7d" [⟨"hook", ⟨"\x7bdate\x7d", "p"⟩⟩] 0 "2026-10-11"
        = "\x7bdate\x7d"
    ∧ applyNaming "\x7bhook\x7d_\x7bcta\x7d"
        [⟨"hook", ⟨"\x7b1\x7d", "p1"⟩⟩, ⟨"cta", ⟨"x", "p2"⟩⟩] 0 "2026-10-11" = "x_x" := by
  refine ⟨by decide, by decide, by decide, by decide⟩

-- ── Trim specifications (parseTrim, lines 200-228) ─────────────────────────

/-- The tagged trim variants produced by `parseTrim`. -/
inductive Trim where
  | last (seconds : ℚ)
  | range (start duration : ℚ)
deriving Repr, DecidableEq

instance exceptDecEq {ε α : Type} [DecidableEq ε] [DecidableEq α] :
    DecidableEq (Except ε α) := fun x y =>
  match x, y with
  | .ok a, .ok b =>
    if h : a = b then .isTrue (by rw [h])
    else .isFalse (by intro hc; injection hc; contradiction)
  | .error a, .error b =>
    if h : a = b then .isTrue (by rw [h])
    else .isFalse (by intro hc; injection hc; contradiction)
  | .ok _, .error _ => .isFalse (fun hc => Except.noConfusion hc)
  | .error _, .ok _ => .isFalse (fun hc => Except.noConfusion hc)

theorem toLower_of_isDigit {c : Char} (h : c.isDigit) : c.toLower = c := by
  have h2 : 48 ≤ c.toNat ∧ c.toNat ≤ 57 := by
    simp only [Char.isDigit, Bool.and_eq_true, decide_eq_true_eq] at h
    exact ⟨h.1, h.2⟩
  simp [Char.toLower]
  omega

/-- Numeric value of a fractional digit string (the part after the dot). -/
def fracValQ (cs : List Char) : ℚ := (digitsVal cs : ℚ) / (10 : ℚ) ^ cs.length

/-- Full match of the regex fragment `\d+(\.\d+)?$` and its `parseFloat`
value. -/
def parseDecimalQ (cs : List Char) : Option ℚ :=
  let intPart := cs.takeWhile Char.isDigit
  let rest := cs.dropWhile Char.isDigit
  if intPart = [] then none
  else match rest with
    | [] => some (digitsVal intPart : ℚ)
    | c :: fr =>
      if c = '.' ∧ fr ≠ [] ∧ fr.all Char.isDigit then
        some ((digitsVal intPart : ℚ) + fracValQ fr)
      else none

/-- Prefix match of `\d+(\.\d+)?`, returning the value and the unconsumed
rest (with regex backtracking: a dot not followed by a digit is not
consumed). -/
def parseNumPrefix (cs : List Char) : Option (ℚ × List Char) :=
  let intPart := cs.takeWhile Char.isDigit
  let rest := cs.dropWhile Char.isDigit
  if intPart = [] then none
  else match rest with
    | '.' :: fr =>
      let fd := fr.takeWhile Char.isDigit
      if fd = [] then some ((digitsVal intPart : ℚ), rest)
      else some ((digitsVal intPart : ℚ) + fracValQ fd, fr.dropWhile Char.isDigit)
    | _ => some ((digitsVal intPart : ℚ), rest)

/-- `/^last(\d+(\.\d+)?)$/i` (line 204): case-insensitive `last` prefix,
then a full decimal match. -/
def matchLast (s : String) : Option ℚ :=
  match s.data with
  | c1 :: c2 :: c3 :: c4 :: rest =>
    if c1.toLower = 'l' ∧ c2.toLower = 'a' ∧ c3.toLower = 's' ∧ c4.toLower = 't' then
      parseDecimalQ rest
    else none
  | _ => none

/-- `/^(\d+(\.\d+)?)-(\d+(\.\d+)?)$/` (line 213), returning start and
end values. -/
def matchRange (s : String) : Option (ℚ × ℚ) :=
  match parseNumPrefix s.data with
  | some (q1, c :: r2) =>
    if c = '-' then
      match parseDecimalQ r2 with
      | some q2 => some (q1, q2)
      | none => none
    else none
  | _ => none

/-- Exponent suffix `[eE][+-]?\d+` of a JS number literal; returns the
exponent (0 when the suffix is absent or incomplete) and the rest. -/
def parseExpPart (cs : List Char) : Int :=
  match cs with
  | c :: rest =>
    if c = 'e' ∨ c = 'E' then
      match rest with
      | d :: rest2 =>
        if d = '+' then
          (let ds := rest2.takeWhile Char.isDigit
           if ds = [] then 0 else (digitsVal ds : Int))
        else if d = '-' then
          (let ds := rest2.takeWhile Char.isDigit
           if ds = [] then 0 else -(digitsVal ds : Int))
        else
          (let ds := rest.takeWhile Char.isDigit
           if ds = [] then 0 else (digitsVal ds : Int))
      | [] => 0
    else 0
  | [] => 0

/-- Longest unsigned JS decimal-literal prefix: `digits[.digits?][exp]`
or `.digits[exp]`; `none` models "no number here". -/
def parseUnsignedFloat (cs : List Char) : Option ℚ :=
  let intD := cs.takeWhile Char.isDigit
  let rest := cs.dropWhile Char.isDigit
  if intD ≠ [] then
    let fracAndRest : ℚ × List Char :=
      match rest with
      | '.' :: fr => (fracValQ (fr.takeWhile Char.isDigit), fr.dropWhile Char.isDigit)
      | _ => (0, rest)
    some (((digitsVal intD : ℚ) + fracAndRest.1) * (10 : ℚ) ^ parseExpPart fracAndRest.2)
  else
    match cs with
    | '.' :: fr =>
      let fd := fr.takeWhile Char.isDigit
      if fd = [] then none
      else some (fracValQ fd * (10 : ℚ) ^ parseExpPart (fr.dropWhile Char.isDigit))
    | _ => none

/-- Model of `parseFloat`: skip leading whitespace, optional sign, then
the longest decimal-literal prefix; `none` models `NaN`.  The JS function
additionally accepts the literal `Infinity`, which has no rational value;
such inputs are treated as unparsable here (they carry no sign
information relevant to any claim). -/
def jsParseFloat (s : String) : Option ℚ :=
  let cs := s.data.dropWhile (fun c => isJsWhitespace c)
  match cs with
  | '+' :: rest => parseUnsignedFloat rest
  | '-' :: rest => (parseUnsignedFloat rest).map (fun q => -q)
  | _ => parseUnsignedFloat cs

/-- Embedding of `parseTrim` (lines 200-228).  `Except.error ()` models
the fatal configuration-error path (`console.error` + `process.exit(1)`),
`Except.ok none` the `null` returned for a falsy argument. -/
def parseTrim (s : String) : Except Unit (Option Trim) :=
  if s = "" then .ok none
  else match matchLast s with
  | some sec => if sec ≤ 0 then .error () else .ok (some (.last sec))
  | none =>
    match matchRange s with
    | some (st, en) => if en ≤ st then .error () else .ok (some (.range st (en - st)))
    | none =>
      match jsParseFloat s with
      | some d => if 0 < d then .ok (some (.range 0 d)) else .error ()
      | none => .error ()

def trimOf : Option String → Except Unit (Option Trim)
  | none => .ok none
  | some s => parseTrim s

/-- Population of `trimMap` (lines 467-469): the map is keyed only by
`hook`, `body` and `cta`, from the three fixed `--trim-*` options; a
parse failure aborts the run before any job is built. -/
def mkTrimMap (trimHook trimBody trimCta : Option String) :
    Except Unit (String → Option Trim) := do
  let ph ← trimOf trimHook
  let pb ← trimOf trimBody
  let pc ← trimOf trimCta
  pure (fun l => if l = "hook" then ph else if l = "body" then pb else if l = "cta" then pc else none)

theorem parseNumPrefix_nonneg {cs : List Char} {q : ℚ} {r : List Char}
    (h : parseNumPrefix cs = some (q, r)) : 0 ≤ q := by
  simp only [parseNumPrefix] at h
  split at h
  · exact absurd h (by simp)
  · split at h
    · split at h
      · rw [Option.some_inj, Prod.mk.injEq] at h
        rw [← h.1]
        positivity
      · rw [Option.some_inj, Prod.mk.injEq] at h
        rw [← h.1]
        simp only [fracValQ]
        positivity
    · rw [Option.some_inj, Prod.mk.injEq] at h
      rw [← h.1]
      positivity

theorem parseNumPrefix_head {cs : List Char} {q : ℚ} {r : List Char}
    (h : parseNumPrefix cs = some (q, r)) : ∃ c t, cs = c :: t ∧ c.isDigit := by
  cases cs with
  | nil => simp [parseNumPrefix] at h
  | cons c t =>
    by_cases hc : c.isDigit
    · exact ⟨c, t, rfl, hc⟩
    · exfalso
      simp [parseNumPrefix, List.takeWhile, hc] at h

theorem matchRange_parseNumPrefix {s : String} {st en : ℚ}
    (h : matchRange s = some (st, en)) : ∃ r, parseNumPrefix s.data = some (st, r) := by
  simp only [matchRange] at h
  cases heq : parseNumPrefix s.data with
  | none => rw [heq] at h; simp at h
  | some p =>
    rw [heq] at h
    obtain ⟨q1, rest⟩ := p
    cases rest with
    | nil => simp at h
    | cons c r2 =>
      simp only at h
      split at h
      · cases hd : parseDecimalQ r2 with
        | none => rw [hd] at h; simp at h
        | some q2 =>
          rw [hd] at h
          rw [Option.some_inj, Prod.mk.injEq] at h
          obtain ⟨h1, h2⟩ := h
          subst h1
          exact ⟨c :: r2, rfl⟩
      · simp at h

theorem matchLast_of_matchRange {s : String} {p : ℚ × ℚ}
    (h : matchRange s = some p) : matchLast s = none := by
  obtain ⟨st, en⟩ := p
  obtain ⟨r, hpn⟩ := matchRange_parseNumPrefix h
  obtain ⟨c, t, hcs, hdig⟩ := parseNumPrefix_head hpn
  have hcne : ¬ c.toLower = 'l' := by
    rw [toLower_of_isDigit hdig]
    intro hcl
    rw [hcl] at hdig
    exact absurd hdig (by decide)
  cases t with
  | nil => simp [matchLast, hcs]
  | cons c2 t2 =>
    cases t2 with
    | nil => simp [matchLast, hcs]
    | cons c3 t3 =>
      cases t3 with
      | nil => simp [matchLast, hcs]
      | cons c4 t4 => simp [matchLast, hcs, hcne]

/-- C8: trim-spec validation.  A range whose end does not exceed its
start, and a bare non-positive number, are rejected at parse time (a
fatal configuration error, before any job exists: a failing `--trim-*`
option makes the whole trim-map construction fail); every accepted
`range` has start `≥ 0` and duration `> 0`, and every accepted `last`
has positive seconds.  The range regex admits no sign, so a negative
start cannot even be denoted. -/
theorem trim_parse_validation :
    (∀ s t, parseTrim s = .ok (some t) →
      (match t with
       | .range st du => 0 ≤ st ∧ 0 < du
       | .last sec => 0 < sec))
    ∧ (∀ s (st en : ℚ), matchRange s = some (st, en) → en ≤ st → parseTrim s = .error ())
    ∧ (∀ s (d : ℚ), matchLast s = none → matchRange s = none → jsParseFloat s = some d →
        d ≤ 0 → parseTrim s = .error ())
    ∧ (∀ th tb tc s, th = some s → parseTrim s = .error () →
        mkTrimMap th tb tc = .error ()) := by
  refine ⟨?_, ?_, ?_, ?_⟩
  · intro s t h
    simp only [parseTrim] at h
    split at h
    · simp at h
    · split at h
      next sec hml =>
        split at h
        · simp at h
        next hsec =>
          rw [Except.ok.injEq, Option.some_inj] at h
          rw [← h]
          show 0 < sec
          exact lt_of_not_le hsec
      next hml =>
        split at h
        next st en hmr =>
          split at h
          · simp at h
          next hle =>
            rw [Except.ok.injEq, Option.some_inj] at h
            rw [← h]
            show 0 ≤ st ∧ 0 < en - st
            obtain ⟨r, hpn⟩ := matchRange_parseNumPrefix hmr
            constructor
            · exact parseNumPrefix_nonneg hpn
            · linarith [lt_of_not_le hle]
        next hmr =>
          split at h
          next d hpf =>
            split at h
            next hd =>
              rw [Except.ok.injEq, Option.some_inj] at h
              rw [← h]
              show (0 : ℚ) ≤ 0 ∧ 0 < d
              exact ⟨le_refl 0, hd⟩
            · simp at h
          next hpf => simp at h
  · intro s st en hmr hle
    have hs : ¬ s = "" := by
      intro hemp
      rw [hemp] at hmr
      simp [matchRange, parseNumPrefix] at hmr
    simp only [parseTrim, if_neg hs, matchLast_of_matchRange hmr, hmr, if_pos hle]
  · intro s d hml hmr hpf hd
    have hs : ¬ s = "" := by
      intro hemp
      rw [hemp] at hpf
      rw [show jsParseFloat "" = none from rfl] at hpf
      exact Option.noConfusion hpf
    simp only [parseTrim, if_neg hs, hml, hmr, hpf, if_neg (not_lt.mpr hd)]
  · intro th tb tc s hth herr
    rw [hth]
    simp [mkTrimMap, trimOf, herr, Bind.bind, Except.bind]

theorem trim_parse_validation_witness :
    parseTrim "5-2" = .error () ∧ (0 ≤ (0 : ℚ) ∧ 0 < (3 : ℚ) - 0) := by
  have hp3 : parseTrim "0-3" = .ok (some (.range 0 (3 - 0))) := by
    have e0 : digitsVal ['0'] = 0 := by decide
    have e3 : digitsVal ['3'] = 3 := by decide
    have h : parseTrim "0-3"
        = .ok (some (.range ((digitsVal ['0'] : ℚ))
            ((digitsVal ['3'] : ℚ) - (digitsVal ['0'] : ℚ)))) := rfl
    rw [h, e0, e3]
    norm_num
  constructor
  · exact trim_parse_validation.2.1 "5-2" 5 2 (by decide) (by norm_num)
  · exact trim_parse_validation.1 "0-3" (.range 0 (3 - 0)) hp3

-- ── FilterGraphBuilder (render task, lines 627-908) ────────────────────────

/-- Embedding of `getVideoDuration` (lines 291-303): the raw ffprobe
stdout is an oracle argument (`none` models a thrown probe); a `NaN` or
non-positive parse yields `null`. -/
def getVideoDuration (probeOut : Option String) : Option ℚ :=
  match probeOut with
  | none => none
  | some out =>
    match jsParseFloat out with
    | none => none
    | some d => if d ≤ 0 then none else some d

/-- Stream labels of the filter graph (the bracketed names the script
interpolates into the filter string). -/
inductive SLabel where
  | vs (i : Nat)       -- `[vsN]` scaled video
  | vt (i : Nat)       -- `[vtN]` trimmed video
  | asl (i : Nat)      -- `[asN]` resampled audio
  | atl (i : Nat)      -- `[atN]` trimmed audio
  | concatv
  | concata
  | overlayv
  | bgm
  | mixeda
deriving Repr, DecidableEq

/-- Where a segment's audio is read from on the has-audio path
(lines 800-805). -/
inductive AudioSrc where
  | real (inputIdx : Nat)      -- `[idx:a]` of the video input itself
  | silence (inputIdx : Nat)   -- the `anullsrc` lavfi input added for it
deriving Repr, DecidableEq

/-- One element pushed into the `filter_complex` array.  Each constructor
mirrors one `push` site of the script (format string in the comment). -/
inductive FilterOp where
  /-- `[i:v]scale=w:h:...,pad=w:h:...,setsar=1,fps=30[vsi]` -/
  | scalePad (idx w h : Nat)
  /-- `[src]aresample=44100,aformat=sample_fmts=fltp:channel_layouts=stereo[asi]` -/
  | aresampleFmt (src : AudioSrc) (idx : Nat)
  /-- `[vsi]trim=start=st(:duration=du),setpts=PTS-STARTPTS[vti]` -/
  | vtrim (idx : Nat) (start : ℚ) (dur : Option ℚ)
  /-- `[asi]atrim=start=st(:duration=du),asetpts=PTS-STARTPTS[ati]` -/
  | atrim (idx : Nat) (start : ℚ) (dur : Option ℚ)
  /-- `...concat=n=n:v=v:a=a[concatv]([concata])` -/
  | concatOp (vsrcs asrcs : List SLabel) (n v a : Nat)
  /-- `[concatv]drawtext=text='esc':fontsize=..:fontcolor=..:x=..:y=..:borderw=2:bordercolor=black[overlayv]` -/
  | drawtext (src : SLabel) (escapedText : String) (fontsize color yExpr : String)
  /-- `[m:a]aresample=44100,aformat=...,volume=0.3[bgm]` -/
  | bgmChain (musicInputIdx : Nat)
  /-- `[concata][bgm]amix=inputs=2:duration=first:dropout_transition=2[mixeda]` -/
  | amix
  /-- `[vsi]trim=start=undefined:duration=undefined,setpts=PTS-STARTPTS[vti]` —
  emitted when the trim lookup found an inherited `Object.prototype`
  member, whose `.start`/`.duration` interpolate as `undefined` -/
  | vtrimUndefined (idx : Nat)
  /-- `[asi]atrim=start=undefined:duration=undefined,asetpts=PTS-STARTPTS[ati]` -/
  | atrimUndefined (idx : Nat)
deriving Repr, DecidableEq

/-- One `-i` input of the assembled command. -/
inductive InputSpec where
  | file (path : String)
  /-- `-f lavfi -i anullsrc=channel_layout=stereo:sample_rate=44100` -/
  | lavfiSilence
deriving Repr, DecidableEq

/-- The transcoding request: inputs, filter graph, `-map` targets, and
whether audio encoding flags (`-c:a aac -b:a 128k`) are emitted. -/
structure Cmd where
  inputs : List InputSpec
  filters : List FilterOp
  maps : List SLabel
  audioCodec : Bool
deriving Repr, DecidableEq

/-- Drawtext escaping on the has-audio path (line 847): backslashes
first, then single quotes, then colons. -/
def escDrawtextAudio (s : String) : String :=
  let p1 := s.data.flatMap (fun c => if c = '\\' then ['\\', '\\'] else [c])
  let p2 := p1.flatMap (fun c =>
    if c = Char.ofNat 39 then [Char.ofNat 39, '\\', Char.ofNat 39, Char.ofNat 39] else [c])
  let p3 := p2.flatMap (fun c => if c = ':' then ['\\', ':'] else [c])
  ⟨p3⟩

/-- Drawtext escaping on the video-only path (line 752): single quotes,
then colons, then backslashes — note the different order. -/
def escDrawtextVideoOnly (s : String) : String :=
  let p1 := s.data.flatMap (fun c =>
    if c = Char.ofNat 39 then [Char.ofNat 39, '\\', Char.ofNat 39, Char.ofNat 39] else [c])
  let p2 := p1.flatMap (fun c => if c = ':' then ['\\', ':'] else [c])
  let p3 := p2.flatMap (fun c => if c = '\\' then ['\\', '\\'] else [c])
  ⟨p3⟩

/-- Overlay/encoding options of the render task. -/
structure RenderOpts where
  w : Nat
  h : Nat
  overlayPos : String
  overlaySize : String
  overlayColor : String
deriving Repr, DecidableEq

/-- The y-expression selection (lines 748-751 and 843-845). -/
def yExprOf (pos : String) : String :=
  if pos = "top" then "h*0.08"
  else if pos = "center" then "(h-text_h)/2"
  else "h*0.85"

/-- Per-segment ops of the video-only branch (lines 717-737): scale/pad,
then the optional trim; returns the pushed ops and the final video
label fed to concat. -/
def segVideoOnly (opts : RenderOpts) (trimMap : String → Option Trim)
    (durOf : String → Option ℚ) (idx : Nat) (p : ComboPart) : List FilterOp × SLabel :=
  let base := [FilterOp.scalePad idx opts.w opts.h]
  match trimMap p.label with
  | some (.last sec) =>
    match durOf p.video.path with
    | some d =>
      if d ≠ 0 ∧ sec < d then (base ++ [.vtrim idx (max 0 (d - sec)) none], .vt idx)
      else (base, .vs idx)
    | none => (base, .vs idx)
  | some (.range st du) => (base ++ [.vtrim idx st (some du)], .vt idx)
  | none => (base, .vs idx)

/-- Per-segment ops of the has-audio branch (lines 792-831): scale/pad,
audio resample (from the input itself or its silence input), optional
video+audio trim; returns the ops and the concat labels. -/
def segAudio (opts : RenderOpts) (trimMap : String → Option Trim)
    (durOf : String → Option ℚ) (hasAud : Bool) (silIdx : Nat) (idx : Nat) (p : ComboPart) :
    List FilterOp × SLabel × SLabel :=
  let src := if hasAud then AudioSrc.real idx else AudioSrc.silence silIdx
  let base := [FilterOp.scalePad idx opts.w opts.h, .aresampleFmt src idx]
  match trimMap p.label with
  | some (.last sec) =>
    match durOf p.video.path with
    | some d =>
      if d ≠ 0 ∧ sec < d then
        (base ++ [.vtrim idx (max 0 (d - sec)) none, .atrim idx (max 0 (d - sec)) none],
          .vt idx, .atl idx)
      else (base, .vs idx, .asl idx)
    | none => (base, .vs idx, .asl idx)
  | some (.range st du) =>
    (base ++ [.vtrim idx st (some du), .atrim idx st (some du)], .vt idx, .atl idx)
  | none => (base, .vs idx, .asl idx)

/-- Input index of the `anullsrc` silence feed of segment `idx`
(lines 782-787): silence inputs are appended after the videos (and the
music input when present), in segment order. -/
def silenceIdx (inputHasAudio : List Bool) (base idx : Nat) : Nat :=
  base + ((inputHasAudio.take idx).filter (fun b => !b)).length

/-- Overlay ops of the video-only branch (lines 743-757). -/
def overlayOpsVideoOnly (opts : RenderOpts) : Option String → List FilterOp × SLabel
  | some t => ([.drawtext .concatv (escDrawtextVideoOnly t) opts.overlaySize opts.overlayColor
      (yExprOf opts.overlayPos)], .overlayv)
  | none => ([], .concatv)

/-- Overlay ops of the has-audio branch (lines 837-852). -/
def overlayOpsAudio (opts : RenderOpts) : Option String → List FilterOp × SLabel
  | some t => ([.drawtext .concatv (escDrawtextAudio t) opts.overlaySize opts.overlayColor
      (yExprOf opts.overlayPos)], .overlayv)
  | none => ([], .concatv)

/-- Music-mix ops (lines 855-864). -/
def musicOps (musicIdx : Nat) : Option MediaItem → List FilterOp × SLabel
  | some _ => ([.bgmChain musicIdx, .amix], .mixeda)
  | none => ([], .concata)

/-- Embedding of the per-combination command build (lines 627-870):
probe-backed audio presence decides between the video-only graph and the
full audio graph. -/
def buildCmd (opts : RenderOpts) (trimMap : String → Option Trim)
    (durOf : String → Option ℚ) (audioOf : String → Bool) (c : Combo) : Cmd :=
  let parts := c.parts
  let n := parts.length
  let inputHasAudio := parts.map (fun p => audioOf p.video.path)
  let anyHasAudio := inputHasAudio.any id || c.music.isSome
  if !anyHasAudio then
    let segs := parts.enum.map (fun ip => segVideoOnly opts trimMap durOf ip.1 ip.2)
    let filters := segs.flatMap Prod.fst ++ [FilterOp.concatOp (segs.map Prod.snd) [] n 1 0]
    let ov := overlayOpsVideoOnly opts c.overlayText
    { inputs := parts.map (fun p => .file p.video.path),
      filters := filters ++ ov.1,
      maps := [ov.2],
      audioCodec := false }
  else
    let musicIdx := n
    let silBase := n + (if c.music.isSome then 1 else 0)
    let segs := parts.enum.map (fun ip =>
      segAudio opts trimMap durOf (audioOf ip.2.video.path)
        (silenceIdx inputHasAudio silBase ip.1) ip.1 ip.2)
    let inputs := parts.map (fun p => InputSpec.file p.video.path)
      ++ (match c.music with | some m => [InputSpec.file m.path] | none => [])
      ++ (inputHasAudio.filter (fun b => !b)).map (fun _ => InputSpec.lavfiSilence)
    let filters := segs.flatMap (fun s => s.1)
      ++ [FilterOp.concatOp (segs.map (fun s => s.2.1)) (segs.map (fun s => s.2.2)) n 1 1]
    let ov := overlayOpsAudio opts c.overlayText
    let mu := musicOps musicIdx c.music
    { inputs := inputs,
      filters := filters ++ ov.1 ++ mu.1,
      maps := [ov.2, mu.2],
      audioCodec := true }

/-- Whether a filter op performs audio processing. -/
def isAudioOp : FilterOp → Bool
  | .aresampleFmt _ _ => true
  | .atrim _ _ _ => true
  | .atrimUndefined _ => true
  | .bgmChain _ => true
  | .amix => true
  | .concatOp _ _ _ _ a => a ≠ 0
  | _ => false

theorem segVideoOnly_isAudioOp_false {opts : RenderOpts} {tm : String → Option Trim}
    {durOf : String → Option ℚ} {i : Nat} {p : ComboPart} {op : FilterOp}
    (h : op ∈ (segVideoOnly opts tm durOf i p).1) : isAudioOp op = false := by
  cases htm : tm p.label with
  | none =>
    simp [segVideoOnly, htm] at h
    rw [h]
    rfl
  | some t =>
    cases t with
    | last sec =>
      cases hd : durOf p.video.path with
      | none =>
        simp [segVideoOnly, htm, hd] at h
        rw [h]
        rfl
      | some d =>
        by_cases hc : d ≠ 0 ∧ sec < d
        · simp [segVideoOnly, htm, hd, hc] at h
          rcases h with rfl | rfl <;> rfl
        · simp [segVideoOnly, htm, hd, hc] at h
          rw [h]
          rfl
    | range st du =>
      simp [segVideoOnly, htm] at h
      rcases h with rfl | rfl <;> rfl

/-- C7: a combination none of whose parts has an audio stream (per the
probe cache) and with no music attached gets a video-only request: no
audio filter ops (no resample, no audio trim, concat with `a=0`, no
silence synthesis, no mixing), only file inputs (no lavfi silence
inputs), only a video stream mapped, and no audio encoder flags. -/
theorem video_only_when_silent (opts : RenderOpts) (trimMap : String → Option Trim)
    (durOf : String → Option ℚ) (audioOf : String → Bool) (c : Combo)
    (hsilent : ∀ p ∈ c.parts, audioOf p.video.path = false)
    (hnomusic : c.music = none) :
    (∀ op ∈ (buildCmd opts trimMap durOf audioOf c).filters, isAudioOp op = false)
    ∧ (∀ inp ∈ (buildCmd opts trimMap durOf audioOf c).inputs, ∃ path, inp = .file path)
    ∧ (∀ l ∈ (buildCmd opts trimMap durOf audioOf c).maps, l = .concatv ∨ l = .overlayv)
    ∧ (buildCmd opts trimMap durOf audioOf c).audioCodec = false := by
  have hany : ((c.parts.map (fun p => audioOf p.video.path)).any id || c.music.isSome) = false := by
    rw [hnomusic]
    simp only [Option.isSome_none, Bool.or_false]
    rw [List.any_eq_false]
    intro b hb
    simp only [List.mem_map] at hb
    obtain ⟨p, hp, rfl⟩ := hb
    simp [hsilent p hp]
  have hcmd : buildCmd opts trimMap durOf audioOf c
      = (let segs := c.parts.enum.map (fun ip => segVideoOnly opts trimMap durOf ip.1 ip.2)
         let ov := overlayOpsVideoOnly opts c.overlayText
         { inputs := c.parts.map (fun p => .file p.video.path),
           filters := (segs.flatMap Prod.fst
             ++ [FilterOp.concatOp (segs.map Prod.snd) [] c.parts.length 1 0]) ++ ov.1,
           maps := [ov.2],
           audioCodec := false }) := by
    rw [buildCmd]
    simp only [hany, Bool.not_false, if_true]
  rw [hcmd]
  refine ⟨?_, ?_, ?_, rfl⟩
  · intro op hop
    simp only [List.mem_append, List.mem_flatMap, List.mem_map, List.mem_singleton] at hop
    rcases hop with (⟨s, ⟨ip, _, rfl⟩, hin⟩ | rfl) | hov
    · exact segVideoOnly_isAudioOp_false hin
    · rfl
    · cases hot : c.overlayText with
      | none => rw [hot] at hov; simp [overlayOpsVideoOnly] at hov
      | some t =>
        rw [hot] at hov
        simp only [overlayOpsVideoOnly, List.mem_singleton] at hov
        rw [hov]
        rfl
  · intro inp hin
    simp only [List.mem_map] at hin
    obtain ⟨p, _, rfl⟩ := hin
    exact ⟨p.video.path, rfl⟩
  · intro l hl
    simp only [List.mem_singleton] at hl
    cases hot : c.overlayText with
    | none => rw [hot] at hl; left; rw [hl]; rfl
    | some t => rw [hot] at hl; right; rw [hl]; rfl

theorem video_only_when_silent_witness :
    (∀ op ∈ (buildCmd ⟨1080, 1920, "bottom", "48", "white"⟩ (fun _ => none) (fun _ => none)
        (fun _ => false) { parts := [⟨"hook", ⟨"a", "pa"⟩⟩] }).filters,
      isAudioOp op = false)
    ∧ (buildCmd ⟨1080, 1920, "bottom", "48", "white"⟩ (fun _ => none) (fun _ => none)
        (fun _ => false) { parts := [⟨"hook", ⟨"a", "pa"⟩⟩] }).audioCodec = false := by
  have h := video_only_when_silent ⟨1080, 1920, "bottom", "48", "white"⟩ (fun _ => none)
    (fun _ => none) (fun _ => false) { parts := [⟨"hook", ⟨"a", "pa"⟩⟩] }
    (by intro p _; rfl) rfl
  exact ⟨h.1, h.2.2.2⟩

/-- The situations in which the render task skips the trim for a part:
no trim spec for its label, or a `last` spec whose duration probe failed
or returned a value not exceeding the requested seconds. -/
def trimSkipped (tm : String → Option Trim) (durOf : String → Option ℚ) (p : ComboPart) : Prop :=
  tm p.label = none ∨ ∃ sec, tm p.label = some (.last sec) ∧
    (durOf p.video.path = none ∨ ∃ d, durOf p.video.path = some d ∧ (d = 0 ∨ ¬ sec < d))

theorem segVideoOnly_op_shape {opts : RenderOpts} {tm : String → Option Trim}
    {durOf : String → Option ℚ} {i : Nat} {p : ComboPart} {op : FilterOp}
    (h : op ∈ (segVideoOnly opts tm durOf i p).1) :
    (∃ w hh, op = .scalePad i w hh) ∨ (∃ st du, op = .vtrim i st du) := by
  cases htm : tm p.label with
  | none =>
    simp [segVideoOnly, htm] at h
    exact Or.inl ⟨_, _, h⟩
  | some t =>
    cases t with
    | last sec =>
      cases hd : durOf p.video.path with
      | none =>
        simp [segVideoOnly, htm, hd] at h
        exact Or.inl ⟨_, _, h⟩
      | some d =>
        by_cases hc : d ≠ 0 ∧ sec < d
        · simp [segVideoOnly, htm, hd, hc] at h
          rcases h with rfl | rfl
          · exact Or.inl ⟨_, _, rfl⟩
          · exact Or.inr ⟨_, _, rfl⟩
        · simp [segVideoOnly, htm, hd, hc] at h
          exact Or.inl ⟨_, _, h⟩
    | range st du =>
      simp [segVideoOnly, htm] at h
      rcases h with rfl | rfl
      · exact Or.inl ⟨_, _, rfl⟩
      · exact Or.inr ⟨_, _, rfl⟩

theorem segAudio_op_shape {opts : RenderOpts} {tm : String → Option Trim}
    {durOf : String → Option ℚ} {hasAud : Bool} {silIdx : Nat} {i : Nat} {p : ComboPart}
    {op : FilterOp} (h : op ∈ (segAudio opts tm durOf hasAud silIdx i p).1) :
    (∃ w hh, op = .scalePad i w hh) ∨ (∃ src, op = .aresampleFmt src i)
      ∨ (∃ st du, op = .vtrim i st du) ∨ (∃ st du, op = .atrim i st du) := by
  cases htm : tm p.label with
  | none =>
    simp [segAudio, htm] at h
    rcases h with rfl | rfl
    · exact Or.inl ⟨_, _, rfl⟩
    · exact Or.inr (Or.inl ⟨_, rfl⟩)
  | some t =>
    cases t with
    | last sec =>
      cases hd : durOf p.video.path with
      | none =>
        simp [segAudio, htm, hd] at h
        rcases h with rfl | rfl
        · exact Or.inl ⟨_, _, rfl⟩
        · exact Or.inr (Or.inl ⟨_, rfl⟩)
      | some d =>
        by_cases hc : d ≠ 0 ∧ sec < d
        · simp [segAudio, htm, hd, hc] at h
          rcases h with rfl | rfl | rfl | rfl
          · exact Or.inl ⟨_, _, rfl⟩
          · exact Or.inr (Or.inl ⟨_, rfl⟩)
          · exact Or.inr (Or.inr (Or.inl ⟨_, _, rfl⟩))
          · exact Or.inr (Or.inr (Or.inr ⟨_, _, rfl⟩))
        · simp [segAudio, htm, hd, hc] at h
          rcases h with rfl | rfl
          · exact Or.inl ⟨_, _, rfl⟩
          · exact Or.inr (Or.inl ⟨_, rfl⟩)
    | range st du =>
      simp [segAudio, htm] at h
      rcases h with rfl | rfl | rfl | rfl
      · exact Or.inl ⟨_, _, rfl⟩
      · exact Or.inr (Or.inl ⟨_, rfl⟩)
      · exact Or.inr (Or.inr (Or.inl ⟨_, _, rfl⟩))
      · exact Or.inr (Or.inr (Or.inr ⟨_, _, rfl⟩))

theorem segVideoOnly_skip {opts : RenderOpts} {tm : String → Option Trim}
    {durOf : String → Option ℚ} {i : Nat} {p : ComboPart}
    (h : trimSkipped tm durOf p) :
    segVideoOnly opts tm durOf i p = ([.scalePad i opts.w opts.h], .vs i) := by
  rcases h with hnone | ⟨sec, htm, hdur⟩
  · simp [segVideoOnly, hnone]
  · rcases hdur with hd | ⟨d, hd, hfail⟩
    · simp [segVideoOnly, htm, hd]
    · have hc : ¬ (d ≠ 0 ∧ sec < d) := by
        rcases hfail with rfl | h2
        · simp
        · tauto
      simp [segVideoOnly, htm, hd, hc]

theorem segAudio_skip {opts : RenderOpts} {tm : String → Option Trim}
    {durOf : String → Option ℚ} {hasAud : Bool} {silIdx : Nat} {i : Nat} {p : ComboPart}
    (h : trimSkipped tm durOf p) :
    segAudio opts tm durOf hasAud silIdx i p
      = ([.scalePad i opts.w opts.h,
          .aresampleFmt (if hasAud then .real i else .silence silIdx) i], .vs i, .asl i) := by
  rcases h with hnone | ⟨sec, htm, hdur⟩
  · simp [segAudio, hnone]
  · rcases hdur with hd | ⟨d, hd, hfail⟩
    · simp [segAudio, htm, hd]
    · have hc : ¬ (d ≠ 0 ∧ sec < d) := by
        rcases hfail with rfl | h2
        · simp
        · tauto
      simp [segAudio, htm, hd, hc]

theorem segVideoOnly_last_trim {opts : RenderOpts} {tm : String → Option Trim}
    {durOf : String → Option ℚ} {i : Nat} {p : ComboPart} {sec d : ℚ}
    (htm : tm p.label = some (.last sec)) (hd : durOf p.video.path = some d)
    (h0 : d ≠ 0) (hlt : sec < d) :
    segVideoOnly opts tm durOf i p
      = ([.scalePad i opts.w opts.h, .vtrim i (max 0 (d - sec)) none], .vt i) := by
  simp [segVideoOnly, htm, hd, h0, hlt]

theorem segAudio_last_trim {opts : RenderOpts} {tm : String → Option Trim}
    {durOf : String → Option ℚ} {hasAud : Bool} {silIdx : Nat} {i : Nat} {p : ComboPart}
    {sec d : ℚ}
    (htm : tm p.label = some (.last sec)) (hd : durOf p.video.path = some d)
    (h0 : d ≠ 0) (hlt : sec < d) :
    segAudio opts tm durOf hasAud silIdx i p
      = ([.scalePad i opts.w opts.h,
          .aresampleFmt (if hasAud then .real i else .silence silIdx) i,
          .vtrim i (max 0 (d - sec)) none, .atrim i (max 0 (d - sec)) none],
          .vt i, .atl i) := by
  simp [segAudio, htm, hd, h0, hlt]

theorem buildCmd_video_only_eq {opts : RenderOpts} {tm : String → Option Trim}
    {durOf : String → Option ℚ} {audioOf : String → Bool} {c : Combo}
    (hb : ((c.parts.map (fun p => audioOf p.video.path)).any id || c.music.isSome) = false) :
    buildCmd opts tm durOf audioOf c
      = (let segs := c.parts.enum.map (fun ip => segVideoOnly opts tm durOf ip.1 ip.2)
         let ov := overlayOpsVideoOnly opts c.overlayText
         { inputs := c.parts.map (fun p => .file p.video.path),
           filters := (segs.flatMap Prod.fst
             ++ [FilterOp.concatOp (segs.map Prod.snd) [] c.parts.length 1 0]) ++ ov.1,
           maps := [ov.2],
           audioCodec := false }) := by
  rw [buildCmd]
  simp only [hb, Bool.not_false, if_true]

theorem buildCmd_audio_eq {opts : RenderOpts} {tm : String → Option Trim}
    {durOf : String → Option ℚ} {audioOf : String → Bool} {c : Combo}
    (hb : ((c.parts.map (fun p => audioOf p.video.path)).any id || c.music.isSome) = true) :
    buildCmd opts tm durOf audioOf c
      = (let silBase := c.parts.length + (if c.music.isSome then 1 else 0)
         let segs := c.parts.enum.map (fun ip =>
           segAudio opts tm durOf (audioOf ip.2.video.path)
             (silenceIdx (c.parts.map (fun p => audioOf p.video.path)) silBase ip.1) ip.1 ip.2)
         let ov := overlayOpsAudio opts c.overlayText
         let mu := musicOps c.parts.length c.music
         { inputs := c.parts.map (fun p => InputSpec.file p.video.path)
             ++ (match c.music with | some m => [InputSpec.file m.path] | none => [])
             ++ ((c.parts.map (fun p => audioOf p.video.path)).filter (fun b => !b)).map
                 (fun _ => InputSpec.lavfiSilence),
           filters := (segs.flatMap (fun s => s.1)
             ++ [FilterOp.concatOp (segs.map (fun s => s.2.1)) (segs.map (fun s => s.2.2))
                   c.parts.length 1 1]) ++ ov.1 ++ mu.1,
           maps := [ov.2, mu.2],
           audioCodec := true }) := by
  rw [buildCmd]
  simp only [hb, Bool.not_true]
  rw [if_neg Bool.false_ne_true]

theorem buildCmd_no_trim_at {opts : RenderOpts} {tm : String → Option Trim}
    {durOf : String → Option ℚ} {audioOf : String → Bool} {c : Combo} {idx : Nat}
    {p : ComboPart}
    (hp : c.parts[idx]? = some p) (hskip : trimSkipped tm durOf p) :
    (∀ st du, FilterOp.vtrim idx st du ∉ (buildCmd opts tm durOf audioOf c).filters)
    ∧ (∀ st du, FilterOp.atrim idx st du ∉ (buildCmd opts tm durOf audioOf c).filters)
    ∧ ∃ vsrcs asrcs nn v a,
        FilterOp.concatOp vsrcs asrcs nn v a ∈ (buildCmd opts tm durOf audioOf c).filters
        ∧ vsrcs[idx]? = some (.vs idx) := by
  cases hb : ((c.parts.map (fun q => audioOf q.video.path)).any id || c.music.isSome) with
  | false =>
    rw [buildCmd_video_only_eq hb]
    refine ⟨?_, ?_, ?_⟩
    · intro st du hmem
      simp only [List.mem_append, List.mem_flatMap, List.mem_map, List.mem_singleton] at hmem
      rcases hmem with (⟨s, ⟨⟨j, pj⟩, hjp, rfl⟩, hin⟩ | heq) | hov
      · rcases segVideoOnly_op_shape hin with ⟨w, hh, habs⟩ | ⟨st2, du2, heq2⟩
        · exact FilterOp.noConfusion habs
        · injection heq2 with h1 h2 h3
          subst h1
          have hpj : pj = p := by
            have h4 := List.mk_mem_enum_iff_getElem?.mp hjp
            rw [hp] at h4
            exact (Option.some_inj.mp h4).symm
          subst hpj
          rw [segVideoOnly_skip hskip] at hin
          simp at hin
      · exact FilterOp.noConfusion heq
      · cases hov' : c.overlayText with
        | none => rw [hov'] at hov; simp [overlayOpsVideoOnly] at hov
        | some t => rw [hov'] at hov; simp [overlayOpsVideoOnly] at hov
    · intro st du hmem
      simp only [List.mem_append, List.mem_flatMap, List.mem_map, List.mem_singleton] at hmem
      rcases hmem with (⟨s, ⟨⟨j, pj⟩, hjp, rfl⟩, hin⟩ | heq) | hov
      · rcases segVideoOnly_op_shape hin with ⟨w, hh, habs⟩ | ⟨st2, du2, heq2⟩
        · exact FilterOp.noConfusion habs
        · exact FilterOp.noConfusion heq2
      · exact FilterOp.noConfusion heq
      · cases hov' : c.overlayText with
        | none => rw [hov'] at hov; simp [overlayOpsVideoOnly] at hov
        | some t => rw [hov'] at hov; simp [overlayOpsVideoOnly] at hov
    · refine ⟨(c.parts.enum.map (fun ip => segVideoOnly opts tm durOf ip.1 ip.2)).map Prod.snd,
        [], c.parts.length, 1, 0, ?_, ?_⟩
      · exact List.mem_append.mpr (Or.inl (List.mem_append.mpr (Or.inr (List.mem_singleton.mpr rfl))))
      · rw [List.getElem?_map, List.getElem?_map, List.getElem?_enum, hp]
        simp only [Option.map_some']
        rw [segVideoOnly_skip hskip]
  | true =>
    rw [buildCmd_audio_eq hb]
    refine ⟨?_, ?_, ?_⟩
    · intro st du hmem
      simp only [List.mem_append, List.mem_flatMap, List.mem_map, List.mem_singleton] at hmem
      rcases hmem with ((⟨s, ⟨⟨j, pj⟩, hjp, rfl⟩, hin⟩ | heq) | hov) | hmu
      · rcases segAudio_op_shape hin with ⟨w, hh, habs⟩ | ⟨src, habs⟩ | ⟨st2, du2, heq2⟩ | ⟨st2, du2, habs⟩
        · exact FilterOp.noConfusion habs
        · exact FilterOp.noConfusion habs
        · injection heq2 with h1 h2 h3
          subst h1
          have hpj : pj = p := by
            have h4 := List.mk_mem_enum_iff_getElem?.mp hjp
            rw [hp] at h4
            exact (Option.some_inj.mp h4).symm
          subst hpj
          rw [segAudio_skip hskip] at hin
          simp at hin
        · exact FilterOp.noConfusion habs
      · exact FilterOp.noConfusion heq
      · cases hov' : c.overlayText with
        | none => rw [hov'] at hov; simp [overlayOpsAudio] at hov
        | some t => rw [hov'] at hov; simp [overlayOpsAudio] at hov
      · cases hmu' : c.music with
        | none => rw [hmu'] at hmu; simp [musicOps] at hmu
        | some m => rw [hmu'] at hmu; simp [musicOps] at hmu
    · intro st du hmem
      simp only [List.mem_append, List.mem_flatMap, List.mem_map, List.mem_singleton] at hmem
      rcases hmem with ((⟨s, ⟨⟨j, pj⟩, hjp, rfl⟩, hin⟩ | heq) | hov) | hmu
      · rcases segAudio_op_shape hin with ⟨w, hh, habs⟩ | ⟨src, habs⟩ | ⟨st2, du2, habs⟩ | ⟨st2, du2, heq2⟩
        · exact FilterOp.noConfusion habs
        · exact FilterOp.noConfusion habs
        · exact FilterOp.noConfusion habs
        · injection heq2 with h1 h2 h3
          subst h1
          have hpj : pj = p := by
            have h4 := List.mk_mem_enum_iff_getElem?.mp hjp
            rw [hp] at h4
            exact (Option.some_inj.mp h4).symm
          subst hpj
          rw [segAudio_skip hskip] at hin
          simp at hin
      · exact FilterOp.noConfusion heq
      · cases hov' : c.overlayText with
        | none => rw [hov'] at hov; simp [overlayOpsAudio] at hov
        | some t => rw [hov'] at hov; simp [overlayOpsAudio] at hov
      · cases hmu' : c.music with
        | none => rw [hmu'] at hmu; simp [musicOps] at hmu
        | some m => rw [hmu'] at hmu; simp [musicOps] at hmu
    · refine ⟨(c.parts.enum.map (fun ip =>
          segAudio opts tm durOf (audioOf ip.2.video.path)
            (silenceIdx (c.parts.map (fun q => audioOf q.video.path))
              (c.parts.length + (if c.music.isSome then 1 else 0)) ip.1) ip.1 ip.2)).map
                (fun s => s.2.1),
        (c.parts.enum.map (fun ip =>
          segAudio opts tm durOf (audioOf ip.2.video.path)
            (silenceIdx (c.parts.map (fun q => audioOf q.video.path))
              (c.parts.length + (if c.music.isSome then 1 else 0)) ip.1) ip.1 ip.2)).map
                (fun s => s.2.2),
        c.parts.length, 1, 1, ?_, ?_⟩
      · exact List.mem_append.mpr (Or.inl (List.mem_append.mpr (Or.inl
          (List.mem_append.mpr (Or.inr (List.mem_singleton.mpr rfl))))))
      · rw [List.getElem?_map, List.getElem?_map, List.getElem?_enum, hp]
        simp only [Option.map_some']
        rw [segAudio_skip hskip]

theorem getVideoDuration_pos {probeOut : Option String} {q : ℚ}
    (h : getVideoDuration probeOut = some q) : 0 < q := by
  cases probeOut with
  | none => exact Option.noConfusion h
  | some out =>
    cases hpf : jsParseFloat out with
    | none => simp [getVideoDuration, hpf] at h
    | some d =>
      simp only [getVideoDuration, hpf] at h
      split at h
      · exact Option.noConfusion h
      next hle =>
        rw [Option.some_inj] at h
        rw [← h]
        exact lt_of_not_le hle

theorem buildCmd_last_trim_at {opts : RenderOpts} {tm : String → Option Trim}
    {durOf : String → Option ℚ} {audioOf : String → Bool} {c : Combo} {idx : Nat}
    {p : ComboPart} {sec d : ℚ}
    (hp : c.parts[idx]? = some p)
    (htm : tm p.label = some (.last sec))
    (hd : durOf p.video.path = some d) (h0 : d ≠ 0) (hlt : sec < d) :
    FilterOp.vtrim idx (max 0 (d - sec)) none ∈ (buildCmd opts tm durOf audioOf c).filters
    ∧ (((c.parts.map (fun q => audioOf q.video.path)).any id || c.music.isSome) = true →
        FilterOp.atrim idx (max 0 (d - sec)) none
          ∈ (buildCmd opts tm durOf audioOf c).filters) := by
  have henum : (idx, p) ∈ c.parts.enum := List.mk_mem_enum_iff_getElem?.mpr hp
  cases hb : ((c.parts.map (fun q => audioOf q.video.path)).any id || c.music.isSome) with
  | false =>
    rw [buildCmd_video_only_eq hb]
    constructor
    · apply List.mem_append.mpr
      left
      apply List.mem_append.mpr
      left
      apply List.mem_flatMap.mpr
      refine ⟨segVideoOnly opts tm durOf idx p, ?_, ?_⟩
      · exact List.mem_map.mpr ⟨(idx, p), henum, rfl⟩
      · rw [segVideoOnly_last_trim htm hd h0 hlt]
        simp
    · intro hcontra
      exact Bool.noConfusion hcontra
  | true =>
    rw [buildCmd_audio_eq hb]
    constructor
    · apply List.mem_append.mpr
      left
      apply List.mem_append.mpr
      left
      apply List.mem_append.mpr
      left
      apply List.mem_flatMap.mpr
      refine ⟨segAudio opts tm durOf (audioOf p.video.path)
          (silenceIdx (c.parts.map (fun q => audioOf q.video.path))
            (c.parts.length + (if c.music.isSome then 1 else 0)) idx) idx p, ?_, ?_⟩
      · exact List.mem_map.mpr ⟨(idx, p), henum, rfl⟩
      · rw [segAudio_last_trim htm hd h0 hlt]
        simp
    · intro _
      apply List.mem_append.mpr
      left
      apply List.mem_append.mpr
      left
      apply List.mem_append.mpr
      left
      apply List.mem_flatMap.mpr
      refine ⟨segAudio opts tm durOf (audioOf p.video.path)
          (silenceIdx (c.parts.map (fun q => audioOf q.video.path))
            (c.parts.length + (if c.music.isSome then 1 else 0)) idx) idx p, ?_, ?_⟩
      · exact List.mem_map.mpr ⟨(idx, p), henum, rfl⟩
      · rw [segAudio_last_trim htm hd h0 hlt]
        simp

/-- C6: for a part with a `Last{sec}` trim, when the duration probe
yields a (truthy) duration strictly above `sec` the job trims video —
and, on the audio path, audio — starting at `duration - seconds` with
timestamps reset (`max 0` as in the script); when the probe fails or the
duration does not exceed `sec` (`getVideoDuration` already maps
non-positive parses to `null`, first conjunct) the part reaches concat
untrimmed (`[vsN]` directly), and the build is total — the trim never
fails the job. -/
theorem last_trim_resolution (opts : RenderOpts) (tm : String → Option Trim)
    (durOf : String → Option ℚ) (audioOf : String → Bool) (c : Combo)
    (idx : Nat) (p : ComboPart) (sec : ℚ)
    (hp : c.parts[idx]? = some p)
    (htm : tm p.label = some (.last sec)) :
    (∀ probeOut (q : ℚ), getVideoDuration probeOut = some q → 0 < q)
    ∧ (∀ d : ℚ, durOf p.video.path = some d → d ≠ 0 → sec < d →
        FilterOp.vtrim idx (max 0 (d - sec)) none ∈ (buildCmd opts tm durOf audioOf c).filters
        ∧ (((c.parts.map (fun q => audioOf q.video.path)).any id || c.music.isSome) = true →
            FilterOp.atrim idx (max 0 (d - sec)) none
              ∈ (buildCmd opts tm durOf audioOf c).filters))
    ∧ ((durOf p.video.path = none ∨ ∃ d, durOf p.video.path = some d ∧ (d = 0 ∨ ¬ sec < d)) →
        (∀ st du, FilterOp.vtrim idx st du ∉ (buildCmd opts tm durOf audioOf c).filters)
        ∧ (∀ st du, FilterOp.atrim idx st du ∉ (buildCmd opts tm durOf audioOf c).filters)
        ∧ ∃ vsrcs asrcs nn v a,
            FilterOp.concatOp vsrcs asrcs nn v a ∈ (buildCmd opts tm durOf audioOf c).filters
            ∧ vsrcs[idx]? = some (.vs idx)) := by
  refine ⟨?_, ?_, ?_⟩
  · intro probeOut q hq
    exact getVideoDuration_pos hq
  · intro d hd h0 hlt
    exact buildCmd_last_trim_at hp htm hd h0 hlt
  · intro hfail
    exact buildCmd_no_trim_at hp (Or.inr ⟨sec, htm, hfail⟩)

theorem last_trim_resolution_witness :
    FilterOp.vtrim 0 5 none ∉ (buildCmd ⟨1080, 1920, "bottom", "48", "white"⟩
        (fun l => if l = "hook" then some (.last 3) else none) (fun _ => none)
        (fun _ => false) { parts := [⟨"hook", ⟨"a", "pa"⟩⟩] }).filters :=
  ((last_trim_resolution ⟨1080, 1920, "bottom", "48", "white"⟩
    (fun l => if l = "hook" then some (.last 3) else none) (fun _ => none) (fun _ => false)
    { parts := [⟨"hook", ⟨"a", "pa"⟩⟩] } 0 ⟨"hook", ⟨"a", "pa"⟩⟩ 3 (by rfl)
    (by simp)).2.2 (Or.inl rfl)).1 5 none

/-- C4 evaluation at the failing input: on the video-only path the
escape order is quotes, colons, backslashes, so the backslash introduced
by the colon escape is doubled (`a:b` becomes `a\\:b`, a literal
backslash followed by an unescaped colon), while the audio path escapes
backslashes first and yields the correct `a\:b`; both orders reach real
drawtext ops of built commands. -/
theorem drawtext_escape_paths :
    escDrawtextAudio "a:b" = "a\\:b"
    ∧ escDrawtextVideoOnly "a:b" = "a\\\\:b"
    ∧ escDrawtextVideoOnly "a:b" ≠ escDrawtextAudio "a:b"
    ∧ FilterOp.drawtext .concatv "a\\\\:b" "48" "white" "h*0.85"
        ∈ (buildCmd ⟨1080, 1920, "bottom", "48", "white"⟩ (fun _ => none) (fun _ => none)
            (fun _ => false)
            { parts := [⟨"hook", ⟨"a", "pa"⟩⟩], overlayText := some "a:b" }).filters
    ∧ FilterOp.drawtext .concatv "a\\:b" "48" "white" "h*0.85"
        ∈ (buildCmd ⟨1080, 1920, "bottom", "48", "white"⟩ (fun _ => none) (fun _ => none)
            (fun _ => true)
            { parts := [⟨"hook", ⟨"a", "pa"⟩⟩], overlayText := some "a:b" }).filters := by
  refine ⟨by decide, by decide, by decide, by decide, by decide⟩

-- ── JobScheduler (runWithConcurrency, lines 357-381) ───────────────────────

/-- A result slot: `{ ok: true, value }` or `{ ok: false, error }`. -/
inductive JobResult (ε α : Type) where
  | ok (value : α)
  | fail (error : ε)
deriving Repr, DecidableEq

/-- `try { ok(await task()) } catch (e) { fail(e) }` on a task's pure
outcome. -/
def wrapOutcome : Except ε α → JobResult ε α
  | .ok v => .ok v
  | .error e => .fail e

/-- A worker is about to test the shared counter, is awaiting task `i`,
or has left its loop. -/
inductive WStatus where
  | ready
  | running (i : Nat)
  | done
deriving Repr, DecidableEq

/-- Scheduler state: the shared `index` counter, the `results` array
(`none` = slot not yet written), and the worker pool. -/
structure SchedState (ε α : Type) where
  nextIndex : Nat
  results : List (Option (JobResult ε α))
  workers : List WStatus
deriving Repr, DecidableEq

/-- Interleaving semantics of `runWithConcurrency`:
`claim` is the atomic `index < tasks.length` test plus `index++`
(no `await` separates them in the worker loop);
`finish` completes `await tasks[i]()` and writes the result slot;
`exit` is a worker observing `index ≥ tasks.length` and leaving.
`outcomes[i]` is the pure outcome task `i` produces when executed. -/
inductive SchedStep (outcomes : List (Except ε α)) :
    SchedState ε α → SchedState ε α → Prop where
  | claim {ni : Nat} {rs : List (Option (JobResult ε α))} {ws : List WStatus} {w : Nat}
      (hw : ws[w]? = some .ready) (h : ni < outcomes.length) :
      SchedStep outcomes ⟨ni, rs, ws⟩ ⟨ni + 1, rs, ws.set w (.running ni)⟩
  | exit {ni : Nat} {rs : List (Option (JobResult ε α))} {ws : List WStatus} {w : Nat}
      (hw : ws[w]? = some .ready) (h : outcomes.length ≤ ni) :
      SchedStep outcomes ⟨ni, rs, ws⟩ ⟨ni, rs, ws.set w .done⟩
  | finish {ni : Nat} {rs : List (Option (JobResult ε α))} {ws : List WStatus} {w i : Nat}
      (hw : ws[w]? = some (.running i)) :
      SchedStep outcomes ⟨ni, rs, ws⟩
        ⟨ni, rs.set i ((outcomes[i]?).map wrapOutcome), ws.set w .ready⟩

/-- `MAX_CONCURRENCY` (line 17). -/
def maxConcurrency : Nat := 4

/-- The initial state: empty results, `min(concurrency, tasks.length)`
ready workers (line 376). -/
def initSched (outcomes : List (Except ε α)) : SchedState ε α :=
  ⟨0, List.replicate outcomes.length none,
    List.replicate (min maxConcurrency outcomes.length) .ready⟩

/-- The scheduler invariant: result slots below the counter are either
written with their own task's wrapped outcome or owned by exactly one
running worker; slots at or above the counter are untouched; a `done`
worker implies the counter has exhausted the tasks. -/
structure SchedInv (outcomes : List (Except ε α)) (s : SchedState ε α) : Prop where
  resLen : s.results.length = outcomes.length
  wLen : s.workers.length = min maxConcurrency outcomes.length
  niLe : s.nextIndex ≤ outcomes.length
  unclaimed : ∀ i : Nat, s.nextIndex ≤ i → i < outcomes.length → s.results[i]? = some none
  runLt : ∀ w i : Nat, s.workers[w]? = some (WStatus.running i) → i < s.nextIndex
  claimed : ∀ i : Nat, i < s.nextIndex →
    s.results[i]? = some ((outcomes[i]?).map wrapOutcome)
    ∨ (s.results[i]? = some none ∧ ∃! w : Nat, s.workers[w]? = some (WStatus.running i))
  doneImp : ∀ w : Nat, s.workers[w]? = some WStatus.done → outcomes.length ≤ s.nextIndex

theorem replicate_getElem_inv {β : Type} {n i : Nat} {a b : β}
    (h : (List.replicate n a)[i]? = some b) : b = a := by
  have hm := List.getElem?_mem h
  exact List.eq_of_mem_replicate hm

theorem schedInv_init (outcomes : List (Except ε α)) :
    SchedInv outcomes (initSched outcomes) := by
  refine ⟨by simp [initSched], by simp [initSched], by simp [initSched], ?_, ?_, ?_, ?_⟩
  · intro i _ hi
    simp [initSched, List.getElem?_replicate, hi]
  · intro w i hw
    have := replicate_getElem_inv hw
    exact absurd this (by simp)
  · intro i hi
    simp [initSched] at hi
  · intro w hw
    have := replicate_getElem_inv hw
    exact absurd this (by simp)

theorem schedInv_step {outcomes : List (Except ε α)} {s s' : SchedState ε α}
    (hinv : SchedInv outcomes s) (hstep : SchedStep outcomes s s') :
    SchedInv outcomes s' := by
  cases hstep with
  | @claim ni rs ws w hw h =>
    have hwlen : w < ws.length := (List.getElem?_eq_some.mp hw).1
    refine ⟨hinv.resLen, by simpa using hinv.wLen, Nat.succ_le_of_lt h, ?_, ?_, ?_, ?_⟩
    · intro i hi hin
      have hi' : ni + 1 ≤ i := hi
      exact hinv.unclaimed i (le_trans (Nat.le_succ ni) hi') hin
    · intro w' i hw'
      have hw2 : (ws.set w (WStatus.running ni))[w']? = some (WStatus.running i) := hw'
      show i < ni + 1
      by_cases hww : w' = w
      · subst hww
        rw [List.getElem?_set_eq_of_lt _ hwlen] at hw2
        injection hw2 with h1
        injection h1 with h2
        exact h2 ▸ Nat.lt_succ_self ni
      · rw [List.getElem?_set_ne (fun hc => hww hc.symm)] at hw2
        exact Nat.lt_succ_of_lt (hinv.runLt w' i hw2)
    · intro i hi
      have hi' : i < ni + 1 := hi
      show rs[i]? = some ((outcomes[i]?).map wrapOutcome)
        ∨ (rs[i]? = some none
            ∧ ∃! w' : Nat, (ws.set w (WStatus.running ni))[w']? = some (WStatus.running i))
      by_cases hii : i = ni
      · subst hii
        right
        refine ⟨hinv.unclaimed i (le_refl _) h, w, ?_, ?_⟩
        · exact List.getElem?_set_eq_of_lt _ hwlen
        · intro w' hw'
          by_cases hww : w' = w
          · exact hww
          · rw [List.getElem?_set_ne (fun hc => hww hc.symm)] at hw'
            exact absurd (hinv.runLt w' i hw') (lt_irrefl i)
      · have hilt : i < ni := by omega
        rcases hinv.claimed i hilt with hleft | ⟨hnone, w₀, hw₀, huniq⟩
        · exact Or.inl hleft
        · right
          have hw₀' : ws[w₀]? = some (WStatus.running i) := hw₀
          have hw0w : w₀ ≠ w := by
            intro hc
            subst hc
            rw [hw₀'] at hw
            injection hw with h1
            exact WStatus.noConfusion h1
          refine ⟨hnone, w₀, ?_, ?_⟩
          · exact (List.getElem?_set_ne (fun hc => hw0w hc.symm)).trans hw₀'
          · intro w' hw'
            by_cases hww : w' = w
            · subst hww
              rw [List.getElem?_set_eq_of_lt _ hwlen] at hw'
              injection hw' with h1
              injection h1 with h2
              exact absurd h2.symm hii
            · rw [List.getElem?_set_ne (fun hc => hww hc.symm)] at hw'
              exact huniq w' hw'
    · intro w' hw'
      have hw2 : (ws.set w (WStatus.running ni))[w']? = some WStatus.done := hw'
      show outcomes.length ≤ ni + 1
      by_cases hww : w' = w
      · subst hww
        rw [List.getElem?_set_eq_of_lt _ hwlen] at hw2
        injection hw2 with h1
        exact WStatus.noConfusion h1
      · rw [List.getElem?_set_ne (fun hc => hww hc.symm)] at hw2
        exact le_trans (hinv.doneImp w' hw2) (Nat.le_succ ni)
  | @exit ni rs ws w hw h =>
    have hwlen : w < ws.length := (List.getElem?_eq_some.mp hw).1
    refine ⟨hinv.resLen, by simpa using hinv.wLen, hinv.niLe, hinv.unclaimed, ?_, ?_, ?_⟩
    · intro w' i hw'
      have hw2 : (ws.set w WStatus.done)[w']? = some (WStatus.running i) := hw'
      show i < ni
      by_cases hww : w' = w
      · subst hww
        rw [List.getElem?_set_eq_of_lt _ hwlen] at hw2
        injection hw2 with h1
        exact WStatus.noConfusion h1
      · rw [List.getElem?_set_ne (fun hc => hww hc.symm)] at hw2
        exact hinv.runLt w' i hw2
    · intro i hi
      have hi' : i < ni := hi
      show rs[i]? = some ((outcomes[i]?).map wrapOutcome)
        ∨ (rs[i]? = some none
            ∧ ∃! w' : Nat, (ws.set w WStatus.done)[w']? = some (WStatus.running i))
      rcases hinv.claimed i hi' with hleft | ⟨hnone, w₀, hw₀, huniq⟩
      · exact Or.inl hleft
      · right
        have hw₀' : ws[w₀]? = some (WStatus.running i) := hw₀
        have hw0w : w₀ ≠ w := by
          intro hc
          subst hc
          rw [hw₀'] at hw
          injection hw with h1
          exact WStatus.noConfusion h1
        refine ⟨hnone, w₀, ?_, ?_⟩
        · exact (List.getElem?_set_ne (fun hc => hw0w hc.symm)).trans hw₀'
        · intro w' hw'
          by_cases hww : w' = w
          · subst hww
            rw [List.getElem?_set_eq_of_lt _ hwlen] at hw'
            injection hw' with h1
            exact WStatus.noConfusion h1
          · rw [List.getElem?_set_ne (fun hc => hww hc.symm)] at hw'
            exact huniq w' hw'
    · intro w' hw'
      exact h
  | @finish ni rs ws w i hw =>
    have hwlen : w < ws.length := (List.getElem?_eq_some.mp hw).1
    have hilt : i < ni := hinv.runLt w i hw
    have hrl : rs.length = outcomes.length := hinv.resLen
    have hnle : ni ≤ outcomes.length := hinv.niLe
    have hireslen : i < rs.length := by omega
    refine ⟨by simpa using hrl, by simpa using hinv.wLen, hnle, ?_, ?_, ?_, ?_⟩
    · intro j hj hjn
      have hj' : ni ≤ j := hj
      exact (List.getElem?_set_ne (by omega)).trans (hinv.unclaimed j hj' hjn)
    · intro w' i' hw'
      have hw2 : (ws.set w WStatus.ready)[w']? = some (WStatus.running i') := hw'
      show i' < ni
      by_cases hww : w' = w
      · subst hww
        rw [List.getElem?_set_eq_of_lt _ hwlen] at hw2
        injection hw2 with h1
        exact WStatus.noConfusion h1
      · rw [List.getElem?_set_ne (fun hc => hww hc.symm)] at hw2
        exact hinv.runLt w' i' hw2
    · intro j hj
      have hj' : j < ni := hj
      show (rs.set i ((outcomes[i]?).map wrapOutcome))[j]? = some ((outcomes[j]?).map wrapOutcome)
        ∨ ((rs.set i ((outcomes[i]?).map wrapOutcome))[j]? = some none
            ∧ ∃! w' : Nat, (ws.set w WStatus.ready)[w']? = some (WStatus.running j))
      by_cases hji : j = i
      · subst hji
        left
        exact List.getElem?_set_eq_of_lt _ hireslen
      · have hres : (rs.set i ((outcomes[i]?).map wrapOutcome))[j]? = rs[j]? :=
          List.getElem?_set_ne (fun hc => hji hc.symm)
        rw [hres]
        rcases hinv.claimed j hj' with hleft | ⟨hnone, w₀, hw₀, huniq⟩
        · exact Or.inl hleft
        · right
          have hw₀' : ws[w₀]? = some (WStatus.running j) := hw₀
          have hw0w : w₀ ≠ w := by
            intro hc
            subst hc
            rw [hw₀'] at hw
            injection hw with h1
            injection h1 with h2
            exact hji h2
          refine ⟨hnone, w₀, ?_, ?_⟩
          · exact (List.getElem?_set_ne (fun hc => hw0w hc.symm)).trans hw₀'
          · intro w' hw'
            by_cases hww : w' = w
            · subst hww
              rw [List.getElem?_set_eq_of_lt _ hwlen] at hw'
              injection hw' with h1
              exact WStatus.noConfusion h1
            · rw [List.getElem?_set_ne (fun hc => hww hc.symm)] at hw'
              exact huniq w' hw'
    · intro w' hw'
      have hw2 : (ws.set w WStatus.ready)[w']? = some WStatus.done := hw'
      show outcomes.length ≤ ni
      by_cases hww : w' = w
      · subst hww
        rw [List.getElem?_set_eq_of_lt _ hwlen] at hw2
        injection hw2 with h1
        exact WStatus.noConfusion h1
      · rw [List.getElem?_set_ne (fun hc => hww hc.symm)] at hw2
        exact hinv.doneImp w' hw2

theorem schedInv_reachable (outcomes : List (Except ε α)) (s : SchedState ε α)
    (hreach : Relation.ReflTransGen (SchedStep outcomes) (initSched outcomes) s) :
    SchedInv outcomes s := by
  induction hreach with
  | refl => exact schedInv_init outcomes
  | tail hab hbc ih => exact schedInv_step ih hbc

/-- C9: in any complete execution of the worker pool (every interleaving
of claim/finish/exit steps from the initial state that ends with all
workers done), every job `i` has exactly one recorded terminal outcome,
stored at its submission index: the wrapped result of task `i` itself —
success with its value or failure with the raised error.  The slot value
depends only on `outcomes[i]`, so one job's failure neither aborts nor
prevents any sibling job. -/
theorem scheduler_records_outcomes (outcomes : List (Except ε α)) (s : SchedState ε α)
    (hreach : Relation.ReflTransGen (SchedStep outcomes) (initSched outcomes) s)
    (hdone : ∀ (w : Nat) (st : WStatus), s.workers[w]? = some st → st = WStatus.done) :
    ∀ i : Nat, i < outcomes.length →
      s.results[i]? = some ((outcomes[i]?).map wrapOutcome) := by
  have hinv : SchedInv outcomes s := schedInv_reachable outcomes s hreach
  intro i hi
  have hn : outcomes.length ≤ s.nextIndex := by
    have hpos : 0 < min maxConcurrency outcomes.length := by
      simp only [maxConcurrency]
      omega
    have hlen : 0 < s.workers.length := by
      rw [hinv.wLen]
      exact hpos
    have hst : s.workers[0]? = some (s.workers[0]) := List.getElem?_eq_getElem hlen
    have hdone0 := hdone 0 _ hst
    rw [hdone0] at hst
    exact hinv.doneImp 0 hst
  have hi' : i < s.nextIndex := by omega
  rcases hinv.claimed i hi' with hleft | ⟨hnone, w₀, hw₀, _⟩
  · exact hleft
  · exact absurd (hdone w₀ _ hw₀) (fun hc => WStatus.noConfusion hc)

theorem scheduler_records_outcomes_witness :
    (⟨2, [some (JobResult.fail "boom"), some (JobResult.ok "fine")],
        [WStatus.done, WStatus.done]⟩ : SchedState String String).results[0]?
      = some ((([Except.error "boom", Except.ok "fine"] :
          List (Except String String))[0]?).map wrapOutcome)
    ∧ (⟨2, [some (JobResult.fail "boom"), some (JobResult.ok "fine")],
        [WStatus.done, WStatus.done]⟩ : SchedState String String).results[1]?
      = some ((([Except.error "boom", Except.ok "fine"] :
          List (Except String String))[1]?).map wrapOutcome) := by
  have hdone : ∀ (w : Nat) (st : WStatus),
      (⟨2, [some (JobResult.fail "boom"), some (JobResult.ok "fine")],
        [WStatus.done, WStatus.done]⟩ : SchedState String String).workers[w]? = some st →
      st = WStatus.done := by
    intro w st h
    match w, h with
    | 0, h =>
      injection h with h1
      exact h1.symm
    | 1, h =>
      injection h with h1
      exact h1.symm
    | (n+2), h => simp at h
  have hsteps : Relation.ReflTransGen
      (SchedStep [Except.error "boom", Except.ok "fine"])
      (initSched [Except.error "boom", Except.ok "fine"])
      ⟨2, [some (JobResult.fail "boom"), some (JobResult.ok "fine")],
        [WStatus.done, WStatus.done]⟩ :=
    Relation.ReflTransGen.tail
      (Relation.ReflTransGen.tail
        (Relation.ReflTransGen.tail
          (Relation.ReflTransGen.tail
            (Relation.ReflTransGen.tail
              (Relation.ReflTransGen.tail Relation.ReflTransGen.refl
                (@SchedStep.claim String String [Except.error "boom", Except.ok "fine"]
                  0 [none, none] [WStatus.ready, WStatus.ready] 0 rfl (by decide)))
              (@SchedStep.claim String String [Except.error "boom", Except.ok "fine"]
                1 [none, none] [WStatus.running 0, WStatus.ready] 1 rfl (by decide)))
            (@SchedStep.finish String String [Except.error "boom", Except.ok "fine"]
              2 [none, none] [WStatus.running 0, WStatus.running 1] 0 0 rfl))
          (@SchedStep.finish String String [Except.error "boom", Except.ok "fine"]
            2 [some (JobResult.fail "boom"), none] [WStatus.ready, WStatus.running 1] 1 1 rfl))
        (@SchedStep.exit String String [Except.error "boom", Except.ok "fine"]
          2 [some (JobResult.fail "boom"), some (JobResult.ok "fine")]
          [WStatus.ready, WStatus.ready] 0 rfl (by decide)))
      (@SchedStep.exit String String [Except.error "boom", Except.ok "fine"]
        2 [some (JobResult.fail "boom"), some (JobResult.ok "fine")]
        [WStatus.done, WStatus.ready] 1 rfl (by decide))
  constructor
  · exact scheduler_records_outcomes [Except.error "boom", Except.ok "fine"] _ hsteps hdone 0
      (by decide)
  · exact scheduler_records_outcomes [Except.error "boom", Except.ok "fine"] _ hsteps hdone 1
      (by decide)

-- ── JS plain-object lookup of the trim map ─────────────────────────────────

/-- The property names every plain object inherits from
`Object.prototype` (Node's default realm): looking any of these up on
`trimMap = {}` yields a truthy function or object, not `undefined`. -/
def protoProps : List String :=
  ["constructor", "hasOwnProperty", "isPrototypeOf", "propertyIsEnumerable",
   "toLocaleString", "toString", "valueOf", "__defineGetter__", "__defineSetter__",
   "__lookupGetter__", "__lookupSetter__", "__proto__"]

/-- What `trimMap[label]` can evaluate to: `undefined` (falsy), an own
property holding a parsed trim spec, or an inherited `Object.prototype`
member — a truthy object whose `.mode`, `.start` and `.duration` are all
`undefined`. -/
inductive TrimLookup where
  | undefVal
  | spec (t : Trim)
  | protoFn (name : String)
deriving Repr, DecidableEq

/-- JS property lookup on the plain object `trimMap` (line 448): an own
property when one was assigned (lines 467-469), otherwise the inherited
`Object.prototype` member for labels naming one, otherwise `undefined`. -/
def jsLookup (own : String → Option Trim) (l : String) : TrimLookup :=
  match own l with
  | some t => .spec t
  | none => if l ∈ protoProps then .protoFn l else .undefVal

/-- Per-segment ops of the video-only branch (lines 717-737) under the
real lookup semantics: `if (trim)` is false only for `undefined`; an
inherited prototype member is truthy with `trim.mode !== "last"`, so it
falls into the range branch and interpolates `undefined` for start and
duration. -/
def segVideoOnlyJs (opts : RenderOpts) (lk : TrimLookup)
    (durOf : String → Option ℚ) (idx : Nat) (p : ComboPart) : List FilterOp × SLabel :=
  let base := [FilterOp.scalePad idx opts.w opts.h]
  match lk with
  | .undefVal => (base, .vs idx)
  | .spec (.last sec) =>
    match durOf p.video.path with
    | some d =>
      if d ≠ 0 ∧ sec < d then (base ++ [.vtrim idx (max 0 (d - sec)) none], .vt idx)
      else (base, .vs idx)
    | none => (base, .vs idx)
  | .spec (.range st du) => (base ++ [.vtrim idx st (some du)], .vt idx)
  | .protoFn _ => (base ++ [.vtrimUndefined idx], .vt idx)

/-- Per-segment ops of the has-audio branch (lines 792-831) under the
real lookup semantics; the range branch trims both video and audio, so a
prototype member yields both degenerate trims. -/
def segAudioJs (opts : RenderOpts) (lk : TrimLookup)
    (durOf : String → Option ℚ) (hasAud : Bool) (silIdx : Nat) (idx : Nat) (p : ComboPart) :
    List FilterOp × SLabel × SLabel :=
  let src := if hasAud then AudioSrc.real idx else AudioSrc.silence silIdx
  let base := [FilterOp.scalePad idx opts.w opts.h, .aresampleFmt src idx]
  match lk with
  | .undefVal => (base, .vs idx, .asl idx)
  | .spec (.last sec) =>
    match durOf p.video.path with
    | some d =>
      if d ≠ 0 ∧ sec < d then
        (base ++ [.vtrim idx (max 0 (d - sec)) none, .atrim idx (max 0 (d - sec)) none],
          .vt idx, .atl idx)
      else (base, .vs idx, .asl idx)
    | none => (base, .vs idx, .asl idx)
  | .spec (.range st du) =>
    (base ++ [.vtrim idx st (some du), .atrim idx st (some du)], .vt idx, .atl idx)
  | .protoFn _ =>
    (base ++ [.vtrimUndefined idx, .atrimUndefined idx], .vt idx, .atl idx)

/-- The per-combination command build (lines 627-870) with the
plain-object lookup `trimMap[parts[idx].label]` made explicit: `own`
holds the map's own entries (the three `--trim-*` options), and each
segment's trim value goes through `jsLookup`. -/
def buildCmdJs (opts : RenderOpts) (own : String → Option Trim)
    (durOf : String → Option ℚ) (audioOf : String → Bool) (c : Combo) : Cmd :=
  let parts := c.parts
  let n := parts.length
  let inputHasAudio := parts.map (fun p => audioOf p.video.path)
  let anyHasAudio := inputHasAudio.any id || c.music.isSome
  if !anyHasAudio then
    let segs := parts.enum.map (fun ip =>
      segVideoOnlyJs opts (jsLookup own ip.2.label) durOf ip.1 ip.2)
    let filters := segs.flatMap Prod.fst ++ [FilterOp.concatOp (segs.map Prod.snd) [] n 1 0]
    let ov := overlayOpsVideoOnly opts c.overlayText
    { inputs := parts.map (fun p => .file p.video.path),
      filters := filters ++ ov.1,
      maps := [ov.2],
      audioCodec := false }
  else
    let musicIdx := n
    let silBase := n + (if c.music.isSome then 1 else 0)
    let segs := parts.enum.map (fun ip =>
      segAudioJs opts (jsLookup own ip.2.label) durOf (audioOf ip.2.video.path)
        (silenceIdx inputHasAudio silBase ip.1) ip.1 ip.2)
    let inputs := parts.map (fun p => InputSpec.file p.video.path)
      ++ (match c.music with | some m => [InputSpec.file m.path] | none => [])
      ++ (inputHasAudio.filter (fun b => !b)).map (fun _ => InputSpec.lavfiSilence)
    let filters := segs.flatMap (fun s => s.1)
      ++ [FilterOp.concatOp (segs.map (fun s => s.2.1)) (segs.map (fun s => s.2.2)) n 1 1]
    let ov := overlayOpsAudio opts c.overlayText
    let mu := musicOps musicIdx c.music
    { inputs := inputs,
      filters := filters ++ ov.1 ++ mu.1,
      maps := [ov.2, mu.2],
      audioCodec := true }

theorem segVideoOnlyJs_undefVal {opts : RenderOpts} {durOf : String → Option ℚ}
    {i : Nat} {p : ComboPart} :
    segVideoOnlyJs opts .undefVal durOf i p = ([.scalePad i opts.w opts.h], .vs i) := rfl

theorem segAudioJs_undefVal {opts : RenderOpts} {durOf : String → Option ℚ}
    {hasAud : Bool} {silIdx i : Nat} {p : ComboPart} :
    segAudioJs opts .undefVal durOf hasAud silIdx i p
      = ([.scalePad i opts.w opts.h,
          .aresampleFmt (if hasAud then .real i else .silence silIdx) i], .vs i, .asl i) := rfl

theorem segVideoOnlyJs_proto {opts : RenderOpts} {durOf : String → Option ℚ}
    {nm : String} {i : Nat} {p : ComboPart} :
    segVideoOnlyJs opts (.protoFn nm) durOf i p
      = ([.scalePad i opts.w opts.h, .vtrimUndefined i], .vt i) := rfl

theorem segAudioJs_proto {opts : RenderOpts} {durOf : String → Option ℚ}
    {nm : String} {hasAud : Bool} {silIdx i : Nat} {p : ComboPart} :
    segAudioJs opts (.protoFn nm) durOf hasAud silIdx i p
      = ([.scalePad i opts.w opts.h,
          .aresampleFmt (if hasAud then .real i else .silence silIdx) i,
          .vtrimUndefined i, .atrimUndefined i], .vt i, .atl i) := rfl

theorem segVideoOnlyJs_op_shape {opts : RenderOpts} {lk : TrimLookup}
    {durOf : String → Option ℚ} {i : Nat} {p : ComboPart} {op : FilterOp}
    (h : op ∈ (segVideoOnlyJs opts lk durOf i p).1) :
    (∃ w hh, op = .scalePad i w hh) ∨ (∃ st du, op = .vtrim i st du)
      ∨ op = .vtrimUndefined i := by
  cases lk with
  | undefVal =>
    simp [segVideoOnlyJs] at h
    exact Or.inl ⟨_, _, h⟩
  | protoFn nm =>
    simp [segVideoOnlyJs] at h
    rcases h with rfl | rfl
    · exact Or.inl ⟨_, _, rfl⟩
    · exact Or.inr (Or.inr rfl)
  | spec t =>
    cases t with
    | last sec =>
      cases hd : durOf p.video.path with
      | none =>
        simp [segVideoOnlyJs, hd] at h
        exact Or.inl ⟨_, _, h⟩
      | some d =>
        by_cases hc : d ≠ 0 ∧ sec < d
        · simp [segVideoOnlyJs, hd, hc] at h
          rcases h with rfl | rfl
          · exact Or.inl ⟨_, _, rfl⟩
          · exact Or.inr (Or.inl ⟨_, _, rfl⟩)
        · simp [segVideoOnlyJs, hd, hc] at h
          exact Or.inl ⟨_, _, h⟩
    | range st du =>
      simp [segVideoOnlyJs] at h
      rcases h with rfl | rfl
      · exact Or.inl ⟨_, _, rfl⟩
      · exact Or.inr (Or.inl ⟨_, _, rfl⟩)

theorem segAudioJs_op_shape {opts : RenderOpts} {lk : TrimLookup}
    {durOf : String → Option ℚ} {hasAud : Bool} {silIdx i : Nat} {p : ComboPart}
    {op : FilterOp} (h : op ∈ (segAudioJs opts lk durOf hasAud silIdx i p).1) :
    (∃ w hh, op = .scalePad i w hh) ∨ (∃ src, op = .aresampleFmt src i)
      ∨ (∃ st du, op = .vtrim i st du) ∨ (∃ st du, op = .atrim i st du)
      ∨ op = .vtrimUndefined i ∨ op = .atrimUndefined i := by
  cases lk with
  | undefVal =>
    simp [segAudioJs] at h
    rcases h with rfl | rfl
    · exact Or.inl ⟨_, _, rfl⟩
    · exact Or.inr (Or.inl ⟨_, rfl⟩)
  | protoFn nm =>
    simp [segAudioJs] at h
    rcases h with rfl | rfl | rfl | rfl
    · exact Or.inl ⟨_, _, rfl⟩
    · exact Or.inr (Or.inl ⟨_, rfl⟩)
    · exact Or.inr (Or.inr (Or.inr (Or.inr (Or.inl rfl))))
    · exact Or.inr (Or.inr (Or.inr (Or.inr (Or.inr rfl))))
  | spec t =>
    cases t with
    | last sec =>
      cases hd : durOf p.video.path with
      | none =>
        simp [segAudioJs, hd] at h
        rcases h with rfl | rfl
        · exact Or.inl ⟨_, _, rfl⟩
        · exact Or.inr (Or.inl ⟨_, rfl⟩)
      | some d =>
        by_cases hc : d ≠ 0 ∧ sec < d
        · simp [segAudioJs, hd, hc] at h
          rcases h with rfl | rfl | rfl | rfl
          · exact Or.inl ⟨_, _, rfl⟩
          · exact Or.inr (Or.inl ⟨_, rfl⟩)
          · exact Or.inr (Or.inr (Or.inl ⟨_, _, rfl⟩))
          · exact Or.inr (Or.inr (Or.inr (Or.inl ⟨_, _, rfl⟩)))
        · simp [segAudioJs, hd, hc] at h
          rcases h with rfl | rfl
          · exact Or.inl ⟨_, _, rfl⟩
          · exact Or.inr (Or.inl ⟨_, rfl⟩)
    | range st du =>
      simp [segAudioJs] at h
      rcases h with rfl | rfl | rfl | rfl
      · exact Or.inl ⟨_, _, rfl⟩
      · exact Or.inr (Or.inl ⟨_, rfl⟩)
      · exact Or.inr (Or.inr (Or.inl ⟨_, _, rfl⟩))
      · exact Or.inr (Or.inr (Or.inr (Or.inl ⟨_, _, rfl⟩)))

theorem buildCmdJs_video_only_eq {opts : RenderOpts} {own : String → Option Trim}
    {durOf : String → Option ℚ} {audioOf : String → Bool} {c : Combo}
    (hb : ((c.parts.map (fun p => audioOf p.video.path)).any id || c.music.isSome) = false) :
    buildCmdJs opts own durOf audioOf c
      = (let segs := c.parts.enum.map (fun ip =>
           segVideoOnlyJs opts (jsLookup own ip.2.label) durOf ip.1 ip.2)
         let ov := overlayOpsVideoOnly opts c.overlayText
         { inputs := c.parts.map (fun p => .file p.video.path),
           filters := (segs.flatMap Prod.fst
             ++ [FilterOp.concatOp (segs.map Prod.snd) [] c.parts.length 1 0]) ++ ov.1,
           maps := [ov.2],
           audioCodec := false }) := by
  rw [buildCmdJs]
  simp only [hb, Bool.not_false, if_true]

theorem buildCmdJs_audio_eq {opts : RenderOpts} {own : String → Option Trim}
    {durOf : String → Option ℚ} {audioOf : String → Bool} {c : Combo}
    (hb : ((c.parts.map (fun p => audioOf p.video.path)).any id || c.music.isSome) = true) :
    buildCmdJs opts own durOf audioOf c
      = (let silBase := c.parts.length + (if c.music.isSome then 1 else 0)
         let segs := c.parts.enum.map (fun ip =>
           segAudioJs opts (jsLookup own ip.2.label) durOf (audioOf ip.2.video.path)
             (silenceIdx (c.parts.map (fun p => audioOf p.video.path)) silBase ip.1) ip.1 ip.2)
         let ov := overlayOpsAudio opts c.overlayText
         let mu := musicOps c.parts.length c.music
         { inputs := c.parts.map (fun p => InputSpec.file p.video.path)
             ++ (match c.music with | some m => [InputSpec.file m.path] | none => [])
             ++ ((c.parts.map (fun p => audioOf p.video.path)).filter (fun b => !b)).map
                 (fun _ => InputSpec.lavfiSilence),
           filters := (segs.flatMap (fun s => s.1)
             ++ [FilterOp.concatOp (segs.map (fun s => s.2.1)) (segs.map (fun s => s.2.2))
                   c.parts.length 1 1]) ++ ov.1 ++ mu.1,
           maps := [ov.2, mu.2],
           audioCodec := true }) := by
  rw [buildCmdJs]
  simp only [hb, Bool.not_true]
  rw [if_neg Bool.false_ne_true]

theorem buildCmdJs_undefVal_ops {opts : RenderOpts} {own : String → Option Trim}
    {durOf : String → Option ℚ} {audioOf : String → Bool} {c : Combo} {idx : Nat}
    {p : ComboPart}
    (hp : c.parts[idx]? = some p) (hlk : jsLookup own p.label = .undefVal) :
    ∀ op ∈ (buildCmdJs opts own durOf audioOf c).filters,
      (∀ st du, op ≠ .vtrim idx st du) ∧ (∀ st du, op ≠ .atrim idx st du)
      ∧ op ≠ .vtrimUndefined idx ∧ op ≠ .atrimUndefined idx := by
  intro op hmem
  cases hb : ((c.parts.map (fun q => audioOf q.video.path)).any id || c.music.isSome) with
  | false =>
    rw [buildCmdJs_video_only_eq hb] at hmem
    simp only [List.mem_append, List.mem_flatMap, List.mem_map, List.mem_singleton] at hmem
    rcases hmem with (⟨s, ⟨⟨j, pj⟩, hjp, rfl⟩, hin⟩ | rfl) | hov
    · by_cases hji : j = idx
      · subst hji
        have hpj : pj = p := by
          have h4 := List.mk_mem_enum_iff_getElem?.mp hjp
          rw [hp] at h4
          exact (Option.some_inj.mp h4).symm
        subst hpj
        rw [hlk, segVideoOnlyJs_undefVal] at hin
        simp only [List.mem_singleton] at hin
        subst hin
        exact ⟨fun st du hc => FilterOp.noConfusion hc, fun st du hc => FilterOp.noConfusion hc,
          fun hc => FilterOp.noConfusion hc, fun hc => FilterOp.noConfusion hc⟩
      · rcases segVideoOnlyJs_op_shape hin with ⟨w, hh, rfl⟩ | ⟨st2, du2, rfl⟩ | rfl
        · exact ⟨fun st du hc => FilterOp.noConfusion hc, fun st du hc => FilterOp.noConfusion hc,
            fun hc => FilterOp.noConfusion hc, fun hc => FilterOp.noConfusion hc⟩
        · refine ⟨?_, fun st du hc => FilterOp.noConfusion hc,
            fun hc => FilterOp.noConfusion hc, fun hc => FilterOp.noConfusion hc⟩
          intro st du hc
          injection hc with h1 h2 h3
          exact hji h1
        · refine ⟨fun st du hc => FilterOp.noConfusion hc, fun st du hc => FilterOp.noConfusion hc,
            ?_, fun hc => FilterOp.noConfusion hc⟩
          intro hc
          injection hc with h1
          exact hji h1
    · exact ⟨fun st du hc => FilterOp.noConfusion hc, fun st du hc => FilterOp.noConfusion hc,
        fun hc => FilterOp.noConfusion hc, fun hc => FilterOp.noConfusion hc⟩
    · have hov2 : op ∈ (overlayOpsVideoOnly opts c.overlayText).1 := hov
      cases hot : c.overlayText with
      | none => rw [hot] at hov2; simp [overlayOpsVideoOnly] at hov2
      | some t =>
        rw [hot] at hov2
        simp only [overlayOpsVideoOnly, List.mem_singleton] at hov2
        subst hov2
        exact ⟨fun st du hc => FilterOp.noConfusion hc, fun st du hc => FilterOp.noConfusion hc,
          fun hc => FilterOp.noConfusion hc, fun hc => FilterOp.noConfusion hc⟩
  | true =>
    rw [buildCmdJs_audio_eq hb] at hmem
    simp only [List.mem_append, List.mem_flatMap, List.mem_map, List.mem_singleton] at hmem
    rcases hmem with ((⟨s, ⟨⟨j, pj⟩, hjp, rfl⟩, hin⟩ | rfl) | hov) | hmu
    · by_cases hji : j = idx
      · subst hji
        have hpj : pj = p := by
          have h4 := List.mk_mem_enum_iff_getElem?.mp hjp
          rw [hp] at h4
          exact (Option.some_inj.mp h4).symm
        subst hpj
        rw [hlk, segAudioJs_undefVal] at hin
        simp only [List.mem_cons, List.mem_singleton, List.not_mem_nil, or_false] at hin
        rcases hin with rfl | rfl
        · exact ⟨fun st du hc => FilterOp.noConfusion hc, fun st du hc => FilterOp.noConfusion hc,
            fun hc => FilterOp.noConfusion hc, fun hc => FilterOp.noConfusion hc⟩
        · exact ⟨fun st du hc => FilterOp.noConfusion hc, fun st du hc => FilterOp.noConfusion hc,
            fun hc => FilterOp.noConfusion hc, fun hc => FilterOp.noConfusion hc⟩
      · rcases segAudioJs_op_shape hin with ⟨w, hh, rfl⟩ | ⟨src, rfl⟩ | ⟨st2, du2, rfl⟩
          | ⟨st2, du2, rfl⟩ | rfl | rfl
        · exact ⟨fun st du hc => FilterOp.noConfusion hc, fun st du hc => FilterOp.noConfusion hc,
            fun hc => FilterOp.noConfusion hc, fun hc => FilterOp.noConfusion hc⟩
        · exact ⟨fun st du hc => FilterOp.noConfusion hc, fun st du hc => FilterOp.noConfusion hc,
            fun hc => FilterOp.noConfusion hc, fun hc => FilterOp.noConfusion hc⟩
        · refine ⟨?_, fun st du hc => FilterOp.noConfusion hc,
            fun hc => FilterOp.noConfusion hc, fun hc => FilterOp.noConfusion hc⟩
          intro st du hc
          injection hc with h1 h2 h3
          exact hji h1
        · refine ⟨fun st du hc => FilterOp.noConfusion hc, ?_,
            fun hc => FilterOp.noConfusion hc, fun hc => FilterOp.noConfusion hc⟩
          intro st du hc
          injection hc with h1 h2 h3
          exact hji h1
        · refine ⟨fun st du hc => FilterOp.noConfusion hc, fun st du hc => FilterOp.noConfusion hc,
            ?_, fun hc => FilterOp.noConfusion hc⟩
          intro hc
          injection hc with h1
          exact hji h1
        · refine ⟨fun st du hc => FilterOp.noConfusion hc, fun st du hc => FilterOp.noConfusion hc,
            fun hc => FilterOp.noConfusion hc, ?_⟩
          intro hc
          injection hc with h1
          exact hji h1
    · exact ⟨fun st du hc => FilterOp.noConfusion hc, fun st du hc => FilterOp.noConfusion hc,
        fun hc => FilterOp.noConfusion hc, fun hc => FilterOp.noConfusion hc⟩
    · have hov2 : op ∈ (overlayOpsAudio opts c.overlayText).1 := hov
      cases hot : c.overlayText with
      | none => rw [hot] at hov2; simp [overlayOpsAudio] at hov2
      | some t =>
        rw [hot] at hov2
        simp only [overlayOpsAudio, List.mem_singleton] at hov2
        subst hov2
        exact ⟨fun st du hc => FilterOp.noConfusion hc, fun st du hc => FilterOp.noConfusion hc,
          fun hc => FilterOp.noConfusion hc, fun hc => FilterOp.noConfusion hc⟩
    · have hmu2 : op ∈ (musicOps c.parts.length c.music).1 := hmu
      cases hmo : c.music with
      | none => rw [hmo] at hmu2; simp [musicOps] at hmu2
      | some m =>
        rw [hmo] at hmu2
        simp only [musicOps, List.mem_cons, List.mem_singleton, List.not_mem_nil, or_false]
          at hmu2
        rcases hmu2 with rfl | rfl
        · exact ⟨fun st du hc => FilterOp.noConfusion hc, fun st du hc => FilterOp.noConfusion hc,
            fun hc => FilterOp.noConfusion hc, fun hc => FilterOp.noConfusion hc⟩
        · exact ⟨fun st du hc => FilterOp.noConfusion hc, fun st du hc => FilterOp.noConfusion hc,
            fun hc => FilterOp.noConfusion hc, fun hc => FilterOp.noConfusion hc⟩

theorem buildCmdJs_proto_trim_at {opts : RenderOpts} {own : String → Option Trim}
    {durOf : String → Option ℚ} {audioOf : String → Bool} {c : Combo} {idx : Nat}
    {p : ComboPart} {nm : String}
    (hp : c.parts[idx]? = some p) (hlk : jsLookup own p.label = .protoFn nm) :
    FilterOp.vtrimUndefined idx ∈ (buildCmdJs opts own durOf audioOf c).filters := by
  have henum : (idx, p) ∈ c.parts.enum := List.mk_mem_enum_iff_getElem?.mpr hp
  cases hb : ((c.parts.map (fun q => audioOf q.video.path)).any id || c.music.isSome) with
  | false =>
    rw [buildCmdJs_video_only_eq hb]
    apply List.mem_append.mpr
    left
    apply List.mem_append.mpr
    left
    apply List.mem_flatMap.mpr
    refine ⟨segVideoOnlyJs opts (jsLookup own p.label) durOf idx p, ?_, ?_⟩
    · exact List.mem_map.mpr ⟨(idx, p), henum, rfl⟩
    · rw [hlk, segVideoOnlyJs_proto]
      simp
  | true =>
    rw [buildCmdJs_audio_eq hb]
    apply List.mem_append.mpr
    left
    apply List.mem_append.mpr
    left
    apply List.mem_append.mpr
    left
    apply List.mem_flatMap.mpr
    refine ⟨segAudioJs opts (jsLookup own p.label) durOf (audioOf p.video.path)
        (silenceIdx (c.parts.map (fun q => audioOf q.video.path))
          (c.parts.length + (if c.music.isSome then 1 else 0)) idx) idx p, ?_, ?_⟩
    · exact List.mem_map.mpr ⟨(idx, p), henum, rfl⟩
    · rw [hlk, segAudioJs_proto]
      simp

/-- C10 counterexample: `trimMap` is a plain object, so the lookup
`trimMap[parts[idx].label]` on a custom segment label that names an
`Object.prototype` member — here `constructor`, with no `--trim-*`
option given at all — returns the inherited, truthy member, and the
render task emits a (degenerate) trim op for that segment, refuting
"a custom segment label never has any trim applied". -/
theorem custom_label_prototype_trim_cex :
    ("constructor" ≠ "hook" ∧ "constructor" ≠ "body" ∧ "constructor" ≠ "cta")
    ∧ FilterOp.vtrimUndefined 0 ∈ (buildCmdJs ⟨1080, 1920, "bottom", "48", "white"⟩
        (fun _ => none) (fun _ => none) (fun _ => false)
        { parts := [⟨"constructor", ⟨"a", "pa"⟩⟩] }).filters := by
  refine ⟨by decide, by decide⟩

/-- C10 (amended): the trim map's own entries come solely from the three
fixed `--trim-*` options, so trims can be configured only for `hook`,
`body` and `cta`, and a custom segment label outside these three and
outside the `Object.prototype` property names never has any trim op
emitted for its clips; however, because the map is a plain object, a
custom label naming an `Object.prototype` member makes the lookup return
the inherited truthy member, which the render task treats as a range
trim and emits a degenerate `trim=start=undefined:duration=undefined`
op for that segment. -/
theorem trim_only_fixed_labels_amended :
    (∀ th tb tc m, mkTrimMap th tb tc = .ok m →
      ∀ l, l ≠ "hook" → l ≠ "body" → l ≠ "cta" → m l = none)
    ∧ (∀ (opts : RenderOpts) (own : String → Option Trim) durOf audioOf (c : Combo)
        (idx : Nat) (p : ComboPart),
        c.parts[idx]? = some p → own p.label = none → p.label ∉ protoProps →
        ∀ st du,
          FilterOp.vtrim idx st du ∉ (buildCmdJs opts own durOf audioOf c).filters
          ∧ FilterOp.atrim idx st du ∉ (buildCmdJs opts own durOf audioOf c).filters
          ∧ FilterOp.vtrimUndefined idx ∉ (buildCmdJs opts own durOf audioOf c).filters
          ∧ FilterOp.atrimUndefined idx ∉ (buildCmdJs opts own durOf audioOf c).filters)
    ∧ (∀ (opts : RenderOpts) (own : String → Option Trim) durOf audioOf (c : Combo)
        (idx : Nat) (p : ComboPart),
        c.parts[idx]? = some p → own p.label = none → p.label ∈ protoProps →
        FilterOp.vtrimUndefined idx ∈ (buildCmdJs opts own durOf audioOf c).filters) := by
  refine ⟨?_, ?_, ?_⟩
  · intro th tb tc m hm l h1 h2 h3
    simp only [mkTrimMap, Bind.bind, Except.bind] at hm
    cases hth : trimOf th with
    | error e => rw [hth] at hm; exact Except.noConfusion hm
    | ok ph =>
      rw [hth] at hm
      cases htb : trimOf tb with
      | error e => rw [htb] at hm; exact Except.noConfusion hm
      | ok pb =>
        rw [htb] at hm
        cases htc : trimOf tc with
        | error e => rw [htc] at hm; exact Except.noConfusion hm
        | ok pc =>
          rw [htc] at hm
          simp only [pure, Except.pure] at hm
          injection hm with hm2
          rw [← hm2]
          simp [h1, h2, h3]
  · intro opts own durOf audioOf c idx p hp hown hproto st du
    have hlk : jsLookup own p.label = .undefVal := by
      rw [jsLookup, hown]
      simp [hproto]
    have h := @buildCmdJs_undefVal_ops opts own durOf audioOf c idx p hp hlk
    refine ⟨?_, ?_, ?_, ?_⟩
    · intro hmem
      exact (h _ hmem).1 st du rfl
    · intro hmem
      exact (h _ hmem).2.1 st du rfl
    · intro hmem
      exact (h _ hmem).2.2.1 rfl
    · intro hmem
      exact (h _ hmem).2.2.2 rfl
  · intro opts own durOf audioOf c idx p hp hown hproto
    have hlk : jsLookup own p.label = .protoFn p.label := by
      rw [jsLookup, hown]
      simp [hproto]
    exact buildCmdJs_proto_trim_at hp hlk

theorem trim_only_fixed_labels_amended_witness :
    FilterOp.vtrimUndefined 0 ∈ (buildCmdJs ⟨1080, 1920, "bottom", "48", "white"⟩
        (fun _ => none) (fun _ => none) (fun _ => false)
        { parts := [⟨"toString", ⟨"a", "pa"⟩⟩] }).filters :=
  trim_only_fixed_labels_amended.2.2 ⟨1080, 1920, "bottom", "48", "white"⟩
    (fun _ => none) (fun _ => none) (fun _ => false)
    { parts := [⟨"toString", ⟨"a", "pa"⟩⟩] } 0 ⟨"toString", ⟨"a", "pa"⟩⟩
    rfl rfl (by decide)

end AdBlitz
